import Mathlib

/-!
# Verification of `MultiQueue` (fixed-arity composite queue)

Shallow embedding of the two C++ implementation variants of `ys::MultiQueue`:

* **Variant A** (`multi_queue.hpp`, namespace `MQA`): each stored element is
  tagged with a global insertion counter (`count_`); `front()`/`dequeue()`
  scan all sub-queue fronts for the minimal tag (`find_oldest_front`).
* **Variant B** (the unnamed duplicate header, namespace `MQB`): a shared
  index queue (`index_queue_`) records global insertion order, with lazy
  deletion tracked by per-sub-queue deficit counters (`remain_`) and purge
  loop `adjust_deque`.

Modelling conventions:
* `std::deque` becomes `List` with the front at the head; `push_back` is
  append, `pop_front` is `tail`, `front()` is `head?`.
* `size_t` becomes `Nat`; the only place the C++ code lets the counter meet
  the top of the machine-word range is variant A's `enqueue`, which checks
  `ULONG_MAX <= count_` explicitly, so no modular wraparound is reachable
  and `Nat` with the explicit `ULONG_MAX` bound is faithful.
* A C `assert` is a fail-fast halt: operations whose body can assert return
  `Option` (`none` = some assertion failed).  Variant A's `enqueue` is the
  one place where the source *also* gives a defined non-assert behaviour for
  a failing condition (`if (ULONG_MAX <= count_) return false;` right after
  `assert(count_ < ULONG_MAX)`); it is modelled by its explicit
  `return false` path, which is the release-mode (`NDEBUG`) semantics.
* `pop_front`/`front` on an empty `std::deque` and out-of-range array
  indexing are undefined behaviour in C++; they are modelled by the total
  functions `List.tail` / `List.head?` and by dependent index checks.  All
  claims are settled on reachable states, where those situations are proved
  unreachable.
-/

/-- `ULONG_MAX` for the 64-bit `unsigned long` used by `size_t`/`count_`
in `multi_queue.hpp`. -/
def ULONG_MAX : Nat := 18446744073709551615

/-! ## Variant A: per-element sequence tag + bounded linear scan -/

/-- State of variant A (`multi_queue.hpp`): `queues_` holds per-sub-queue
deques of `Unit = std::pair<size_t, TYPE>` (insertion tag, value), `count_`
is the global insertion counter, `length_` the total element count. -/
structure StateA (α : Type) (n : Nat) where
  queues_ : Fin n → List (Nat × α)
  count_ : Nat
  length_ : Nat

namespace MQA

/-- The constructor `MultiQueue()` of variant A: empty queues, both
counters zero. -/
def init (α : Type) (n : Nat) : StateA α n :=
  ⟨fun _ => [], 0, 0⟩

/-- The scan loop inside `find_oldest_front`: accumulator `(k, id)` starts
at `(SIZE, id₀)` (`id` is uninitialised in the source and never read while
`k = SIZE`; it is fixed to `0` here).  A non-empty queue `i` with front tag
`t` replaces the accumulator unless `k < SIZE && id <= t`. -/
def scan (m : Nat) (qs : Fin m → List (Nat × α)) :
    List (Fin m) → Nat × Nat → Nat × Nat
  | [], acc => acc
  | i :: rest, acc =>
      scan m qs rest
        (match qs i with
         | [] => acc
         | (t, _) :: _ => if acc.1 < m ∧ acc.2 ≤ t then acc else (i.val, t))

/-- `MultiQueue::find_oldest_front`: index of the sub-queue whose front
carries the minimal insertion tag; `SIZE` when every sub-queue is empty. -/
def find_oldest_front (s : StateA α n) : Nat :=
  (scan n s.queues_ (List.finRange n) (n, 0)).1

/-- `size()` of variant A. -/
def size (s : StateA α n) : Nat := s.length_

/-- `size(i)` of variant A (the `assert(i < SIZE)` bound is carried by the
`Fin n` index). -/
def sizeAt (i : Fin n) (s : StateA α n) : Nat := (s.queues_ i).length

/-- `empty()` of variant A: `0 == length_`. -/
def empty (s : StateA α n) : Bool := s.length_ == 0

/-- `empty(i)` of variant A. -/
def emptyAt (i : Fin n) (s : StateA α n) : Bool := (s.queues_ i).isEmpty

/-- `front()` of variant A: `assert(0 < length_)`, find the oldest front,
`assert(i < SIZE)`, return its value.  `none` = an assertion failed. -/
def front (s : StateA α n) : Option α :=
  if 0 < s.length_ then
    if h : find_oldest_front s < n then
      ((s.queues_ ⟨find_oldest_front s, h⟩).head?).map Prod.snd
    else none
  else none

/-- `front(i)` of variant A, with `i` an untrusted `size_t`:
`assert(i < SIZE); assert(!queues_[i].empty())`, then the front's value.
`none` = an assertion failed. -/
def frontAt (i : Nat) (s : StateA α n) : Option α :=
  if h : i < n then ((s.queues_ ⟨i, h⟩).head?).map Prod.snd else none

/-- `enqueue(i, data)` of variant A: on counter exhaustion the source
explicitly returns `false` without mutating; otherwise the tagged pair
`(count_, data)` is appended to sub-queue `i` and both counters grow.
(The `try`/`catch` around `push_back` only guards allocation failure,
which the model's lists never raise.) -/
def enqueue (i : Fin n) (d : α) (s : StateA α n) : Bool × StateA α n :=
  if ULONG_MAX ≤ s.count_ then (false, s)
  else
    (true,
     ⟨Function.update s.queues_ i (s.queues_ i ++ [(s.count_, d)]),
      s.count_ + 1, s.length_ + 1⟩)

/-- `dequeue()` of variant A.  When the structure is empty the source
does nothing (`if (0 < length_)` guards the whole body and there is no
assertion outside it); otherwise it pops the oldest front, decrements
`length_`, and resets `count_` when `length_` hits `0`.  `none` = the
internal `assert(i < SIZE)` failed. -/
def dequeue (s : StateA α n) : Option (StateA α n) :=
  if 0 < s.length_ then
    if h : find_oldest_front s < n then
      some
        (let i : Fin n := ⟨find_oldest_front s, h⟩
         let l' := s.length_ - 1
         ⟨Function.update s.queues_ i (s.queues_ i).tail,
          if l' = 0 then 0 else s.count_, l'⟩)
    else none
  else some s

/-- `dequeue(i)` of variant A: `assert(i < SIZE)` (`none` on failure);
when sub-queue `i` is empty the source does nothing; otherwise pop its
front, decrement `length_`, reset `count_` when `length_` hits `0`. -/
def dequeueAt (i : Nat) (s : StateA α n) : Option (StateA α n) :=
  if h : i < n then
    some
      (if 0 < (s.queues_ ⟨i, h⟩).length then
        let l' := s.length_ - 1
        ⟨Function.update s.queues_ ⟨i, h⟩ (s.queues_ ⟨i, h⟩).tail,
         if l' = 0 then 0 else s.count_, l'⟩
      else s)
  else none

end MQA

/-! ## Variant B: shared index queue with lazy deletion -/

/-- State of variant B (the unnamed duplicate header): `index_queue_`
lists sub-queue indices in global insertion order, `data_queue_` the
per-sub-queue value deques, `remain_` the per-sub-queue deficit counters,
`length_` the total element count. -/
structure StateB (α : Type) (n : Nat) where
  index_queue_ : List (Fin n)
  data_queue_ : Fin n → List α
  remain_ : Fin n → Nat
  length_ : Nat

namespace MQB

/-- The constructor of variant B: everything empty, `remain_` zeroed by
`memset`. -/
def init (α : Type) (n : Nat) : StateB α n :=
  ⟨[], fun _ => [], fun _ => 0, 0⟩

/-- `MultiQueue::adjust_deque` as a function of the index queue and the
deficit counters: pop front entries whose sub-queue has a positive
deficit, decrementing that deficit, until the front entry is live or the
queue is exhausted. -/
def adjust_deque : List (Fin n) → (Fin n → Nat) → List (Fin n) × (Fin n → Nat)
  | [], r => ([], r)
  | i :: rest, r =>
      if r i = 0 then (i :: rest, r)
      else adjust_deque rest (Function.update r i (r i - 1))

/-- `size()` of variant B. -/
def size (s : StateB α n) : Nat := s.length_

/-- `size(i)` of variant B. -/
def sizeAt (i : Fin n) (s : StateB α n) : Nat := (s.data_queue_ i).length

/-- `empty()` of variant B: note the source tests `index_queue_.empty()`,
not `length_ == 0`. -/
def empty (s : StateB α n) : Bool := s.index_queue_.isEmpty

/-- `empty(i)` of variant B. -/
def emptyAt (i : Fin n) (s : StateB α n) : Bool := (s.data_queue_ i).isEmpty

/-- `front()` of variant B: `assert(!index_queue_.empty())` (`none` on
failure), then the front of the sub-queue named by the index queue's
front entry. -/
def front (s : StateB α n) : Option α :=
  match s.index_queue_ with
  | [] => none
  | i :: _ => (s.data_queue_ i).head?

/-- `front(i)` of variant B, with `i` an untrusted `size_t`:
`assert(i < SIZE); assert(!data_queue_[i].empty())`; `none` = an
assertion failed. -/
def frontAt (i : Nat) (s : StateB α n) : Option α :=
  if h : i < n then (s.data_queue_ ⟨i, h⟩).head? else none

/-- `enqueue(i, data)` of variant B: append `i` to the index queue and
`data` to sub-queue `i`; no counter, no failure path. -/
def enqueue (i : Fin n) (d : α) (s : StateB α n) : StateB α n :=
  ⟨s.index_queue_ ++ [i],
   Function.update s.data_queue_ i (s.data_queue_ i ++ [d]),
   s.remain_, s.length_ + 1⟩

/-- `dequeue()` of variant B: `assert(!index_queue_.empty())` (`none` on
failure), pop the index front `i` and sub-queue `i`'s front, run
`adjust_deque`, decrement `length_`. -/
def dequeue (s : StateB α n) : Option (StateB α n) :=
  match s.index_queue_ with
  | [] => none
  | i :: rest =>
      let p := adjust_deque rest s.remain_
      some
        ⟨p.1, Function.update s.data_queue_ i (s.data_queue_ i).tail,
         p.2, s.length_ - 1⟩

/-- `dequeue(i)` of variant B: `assert(i < SIZE);
assert(!data_queue_[i].empty())` (`none` on failure); pop sub-queue `i`'s
front; if `i` equals the index queue's front, pop it and run
`adjust_deque`, else increment `remain_[i]`.  (Reading
`index_queue_.front()` on an empty index queue is undefined behaviour in
the source; it is modelled as the not-equal branch and proved unreachable
on reachable states.) -/
def dequeueAt (i : Nat) (s : StateB α n) : Option (StateB α n) :=
  if h : i < n then
    if (s.data_queue_ ⟨i, h⟩).isEmpty then none
    else
      some
        (match s.index_queue_ with
         | [] =>
             ⟨[], Function.update s.data_queue_ ⟨i, h⟩ (s.data_queue_ ⟨i, h⟩).tail,
              Function.update s.remain_ ⟨i, h⟩ (s.remain_ ⟨i, h⟩ + 1),
              s.length_ - 1⟩
         | j :: rest =>
             if (⟨i, h⟩ : Fin n) = j then
               let p := adjust_deque rest s.remain_
               ⟨p.1, Function.update s.data_queue_ ⟨i, h⟩ (s.data_queue_ ⟨i, h⟩).tail,
                p.2, s.length_ - 1⟩
             else
               ⟨j :: rest,
                Function.update s.data_queue_ ⟨i, h⟩ (s.data_queue_ ⟨i, h⟩).tail,
                Function.update s.remain_ ⟨i, h⟩ (s.remain_ ⟨i, h⟩ + 1),
                s.length_ - 1⟩)
  else none

end MQB

/-! ## Traces and reachability

A reachable state is the result of running a finite sequence of public
operations whose contract preconditions (§4.1 of the spec) hold at each
step: a valid index for every indexed call, a non-empty structure for
`dequeue()`, a non-empty sub-queue for `dequeue(i)`, and an unexhausted
insertion counter for `enqueue`.  Legality is defined over an abstract
journal: the list of still-present elements `(tag, sub-queue, value)` in
insertion order, together with the current counter value. -/

/-- A public mutating operation of the §4.1 contract. -/
inductive Op (α : Type) (n : Nat) where
  | enq (i : Fin n) (d : α)
  | deq
  | deqAt (i : Fin n)

/-- Journal entry: insertion tag, owning sub-queue, value. -/
abbrev Entry (α : Type) (n : Nat) := Nat × Fin n × α

/-- Abstract journal: the currently-present elements in insertion order
(oldest first). -/
abbrev AbsQ (α : Type) (n : Nat) := List (Entry α n)

/-- The per-sub-queue view of the journal, with tags: the `(tag, value)`
pairs of the entries owned by sub-queue `i`, in order. -/
def entriesAt (i : Fin n) (m : AbsQ α n) : List (Nat × α) :=
  m.filterMap (fun e => if e.2.1 = i then some (e.1, e.2.2) else none)

/-- The per-sub-queue view of the journal, values only. -/
def valuesAt (i : Fin n) (m : AbsQ α n) : List α :=
  m.filterMap (fun e => if e.2.1 = i then some e.2.2 else none)

/-- Whether some journal entry is owned by sub-queue `i`. -/
def hasIdx (i : Fin n) (m : AbsQ α n) : Bool :=
  m.any (fun e => decide (e.2.1 = i))

/-- Remove the first journal entry owned by sub-queue `i`. -/
def removeFirstIdx (i : Fin n) : AbsQ α n → AbsQ α n
  | [] => []
  | e :: rest => if e.2.1 = i then rest else e :: removeFirstIdx i rest

/-- One step of the abstract journal, `none` when the operation's §4.1
precondition fails: `enq` appends a fresh-tagged entry (needs an
unexhausted counter), `deq` removes the oldest entry (needs a non-empty
structure), `deqAt i` removes the oldest entry of sub-queue `i` (needs a
non-empty sub-queue).  The counter resets when the journal drains. -/
def stepM (mc : AbsQ α n × Nat) : Op α n → Option (AbsQ α n × Nat)
  | .enq i d =>
      if mc.2 < ULONG_MAX then some (mc.1 ++ [(mc.2, i, d)], mc.2 + 1)
      else none
  | .deq =>
      match mc.1 with
      | [] => none
      | _ :: m' => some (m', if m'.isEmpty then 0 else mc.2)
  | .deqAt i =>
      if hasIdx i mc.1 then
        let m' := removeFirstIdx i mc.1
        some (m', if m'.isEmpty then 0 else mc.2)
      else none

/-- Run the abstract journal from a given configuration. -/
def runMFrom (mc : AbsQ α n × Nat) : List (Op α n) → Option (AbsQ α n × Nat)
  | [] => some mc
  | op :: ops =>
      match stepM mc op with
      | none => none
      | some mc' => runMFrom mc' ops

/-- Run the abstract journal from the empty configuration.  A trace `ops`
is *legal* (respects every §4.1 precondition) exactly when `runM ops`
is `some`. -/
def runM (ops : List (Op α n)) : Option (AbsQ α n × Nat) :=
  runMFrom ([], 0) ops

/-- One public operation on a variant-A state (the state component of the
operation's result; legality of the trace makes the `Option`s `some`). -/
def stepA (s : StateA α n) : Op α n → StateA α n
  | .enq i d => (MQA.enqueue i d s).2
  | .deq => (MQA.dequeue s).getD s
  | .deqAt i => (MQA.dequeueAt i.val s).getD s

/-- Run a trace on variant A from a given state. -/
def runAFrom (s : StateA α n) : List (Op α n) → StateA α n
  | [] => s
  | op :: ops => runAFrom (stepA s op) ops

/-- Run a trace on variant A from the freshly constructed state. -/
def runA (ops : List (Op α n)) : StateA α n := runAFrom (MQA.init α n) ops

/-- One public operation on a variant-B state. -/
def stepB (s : StateB α n) : Op α n → StateB α n
  | .enq i d => MQB.enqueue i d s
  | .deq => (MQB.dequeue s).getD s
  | .deqAt i => (MQB.dequeueAt i.val s).getD s

/-- Run a trace on variant B from a given state. -/
def runBFrom (s : StateB α n) : List (Op α n) → StateB α n
  | [] => s
  | op :: ops => runBFrom (stepB s op) ops

/-- Run a trace on variant B from the freshly constructed state. -/
def runB (ops : List (Op α n)) : StateB α n := runBFrom (MQB.init α n) ops

/-! ## Lemmas about the journal views -/

variable {α : Type} {n : Nat}

theorem entriesAt_cons (i : Fin n) (e : Entry α n) (m : AbsQ α n) :
    entriesAt i (e :: m) =
      if e.2.1 = i then (e.1, e.2.2) :: entriesAt i m else entriesAt i m := by
  by_cases h : e.2.1 = i <;> simp [entriesAt, List.filterMap_cons, h]

theorem entriesAt_append (i : Fin n) (m₁ m₂ : AbsQ α n) :
    entriesAt i (m₁ ++ m₂) = entriesAt i m₁ ++ entriesAt i m₂ := by
  simp [entriesAt, List.filterMap_append]

theorem valuesAt_cons (i : Fin n) (e : Entry α n) (m : AbsQ α n) :
    valuesAt i (e :: m) =
      if e.2.1 = i then e.2.2 :: valuesAt i m else valuesAt i m := by
  by_cases h : e.2.1 = i <;> simp [valuesAt, List.filterMap_cons, h]

theorem valuesAt_append (i : Fin n) (m₁ m₂ : AbsQ α n) :
    valuesAt i (m₁ ++ m₂) = valuesAt i m₁ ++ valuesAt i m₂ := by
  simp [valuesAt, List.filterMap_append]

theorem valuesAt_eq_map (i : Fin n) (m : AbsQ α n) :
    valuesAt i m = (entriesAt i m).map Prod.snd := by
  induction m with
  | nil => rfl
  | cons e m ih =>
      rw [valuesAt_cons, entriesAt_cons]
      by_cases h : e.2.1 = i <;> simp [h, ih]

theorem mem_of_mem_entriesAt {i : Fin n} {m : AbsQ α n} {p : Nat × α}
    (hp : p ∈ entriesAt i m) : (p.1, i, p.2) ∈ m := by
  induction m with
  | nil => simp [entriesAt] at hp
  | cons e m ih =>
      rw [entriesAt_cons] at hp
      by_cases h : e.2.1 = i
      · rw [if_pos h] at hp
        rcases List.mem_cons.1 hp with h1 | h1
        · subst h1; subst h; simp
        · exact List.mem_cons_of_mem _ (ih h1)
      · rw [if_neg h] at hp
        exact List.mem_cons_of_mem _ (ih hp)

theorem hasIdx_iff {i : Fin n} {m : AbsQ α n} :
    hasIdx i m = true ↔ ∃ e ∈ m, e.2.1 = i := by
  simp [hasIdx, List.any_eq_true]

theorem entriesAt_ne_nil {i : Fin n} {m : AbsQ α n} (h : hasIdx i m = true) :
    entriesAt i m ≠ [] := by
  rcases hasIdx_iff.1 h with ⟨e, he, hei⟩
  induction m with
  | nil => cases he
  | cons e' m ih =>
      rw [entriesAt_cons]
      rcases List.mem_cons.1 he with h1 | h1
      · subst h1
        simp [hei]
      · by_cases h2 : e'.2.1 = i
        · simp [h2]
        · rw [if_neg h2]
          exact ih (hasIdx_iff.2 ⟨e, h1, hei⟩) h1

theorem removeFirstIdx_sublist (i : Fin n) (m : AbsQ α n) :
    (removeFirstIdx i m).Sublist m := by
  induction m with
  | nil => simp [removeFirstIdx]
  | cons e m ih =>
      rw [removeFirstIdx]
      by_cases h : e.2.1 = i
      · rw [if_pos h]
        exact (List.sublist_cons_self e m)
      · rw [if_neg h]
        exact ih.cons₂ e

theorem length_removeFirstIdx {i : Fin n} {m : AbsQ α n} (h : hasIdx i m = true) :
    (removeFirstIdx i m).length + 1 = m.length := by
  rcases hasIdx_iff.1 h with ⟨e, he, hei⟩
  induction m with
  | nil => cases he
  | cons e' m ih =>
      rw [removeFirstIdx]
      by_cases h2 : e'.2.1 = i
      · rw [if_pos h2]; simp
      · rw [if_neg h2]
        rcases List.mem_cons.1 he with h1 | h1
        · subst h1; exact absurd hei h2
        · simp only [List.length_cons]
          rw [← ih (hasIdx_iff.2 ⟨e, h1, hei⟩) h1]

theorem entriesAt_removeFirstIdx_self (i : Fin n) (m : AbsQ α n) :
    entriesAt i (removeFirstIdx i m) = (entriesAt i m).tail := by
  induction m with
  | nil => rfl
  | cons e m ih =>
      rw [removeFirstIdx, entriesAt_cons]
      by_cases h : e.2.1 = i
      · simp [h]
      · rw [if_neg h, if_neg h, entriesAt_cons, if_neg h, ih]

theorem entriesAt_removeFirstIdx_ne {i j : Fin n} (hij : j ≠ i) (m : AbsQ α n) :
    entriesAt j (removeFirstIdx i m) = entriesAt j m := by
  induction m with
  | nil => rfl
  | cons e m ih =>
      rw [removeFirstIdx, entriesAt_cons]
      by_cases h : e.2.1 = i
      · rw [if_pos h, if_neg (by rw [h]; exact fun hh => hij hh.symm)]
      · rw [if_neg h, entriesAt_cons, ih]

theorem valuesAt_removeFirstIdx_self (i : Fin n) (m : AbsQ α n) :
    valuesAt i (removeFirstIdx i m) = (valuesAt i m).tail := by
  rw [valuesAt_eq_map, valuesAt_eq_map, entriesAt_removeFirstIdx_self]
  cases entriesAt i m <;> simp

theorem valuesAt_removeFirstIdx_ne {i j : Fin n} (hij : j ≠ i) (m : AbsQ α n) :
    valuesAt j (removeFirstIdx i m) = valuesAt j m := by
  rw [valuesAt_eq_map, valuesAt_eq_map, entriesAt_removeFirstIdx_ne hij]

/-- Tags pairwise-increasing along the journal pin down an entry by its
tag. -/
theorem eq_of_mem_of_tag_eq {m : AbsQ α n}
    (hs : m.Pairwise (fun a b => a.1 < b.1)) {e₁ e₂ : Entry α n}
    (h₁ : e₁ ∈ m) (h₂ : e₂ ∈ m) (ht : e₁.1 = e₂.1) : e₁ = e₂ := by
  induction m with
  | nil => cases h₁
  | cons e m ih =>
      rcases List.pairwise_cons.1 hs with ⟨hall, hrest⟩
      rcases List.mem_cons.1 h₁ with g₁ | g₁ <;>
        rcases List.mem_cons.1 h₂ with g₂ | g₂
      · rw [g₁, g₂]
      · subst g₁; exact absurd (ht ▸ hall e₂ g₂) (lt_irrefl _)
      · subst g₂; exact absurd (ht ▸ hall e₁ g₁) (fun hh => lt_irrefl _ (ht ▸ hh))
      · exact ih hrest g₁ g₂

/-! ## Lemmas about the purge view of variant B's index queue

`purgeP q r` removes, for each sub-queue `i`, the first `r i` occurrences
of `i` from `q` (the lazily deleted entries), returning the surviving
entries and the deficits left unconsumed.  `adjust_deque` performs a
prefix of this purge, stopping at the first surviving entry. -/

def purgeP : List (Fin n) → (Fin n → Nat) → List (Fin n) × (Fin n → Nat)
  | [], r => ([], r)
  | i :: rest, r =>
      if r i = 0 then
        let p := purgeP rest r
        (i :: p.1, p.2)
      else purgeP rest (Function.update r i (r i - 1))

/-- The surviving entries of the index queue after removing, for each
sub-queue, its lazily deleted entries. -/
def purge (q : List (Fin n)) (r : Fin n → Nat) : List (Fin n) :=
  (purgeP q r).1

/-- Remove the first occurrence of `i` from a list of sub-queue
indices. -/
def removeFirstFin (i : Fin n) : List (Fin n) → List (Fin n)
  | [] => []
  | j :: rest => if j = i then rest else j :: removeFirstFin i rest

theorem mapIdx_removeFirstIdx (i : Fin n) (m : AbsQ α n) :
    (removeFirstIdx i m).map (fun e => e.2.1) =
      removeFirstFin i (m.map (fun e => e.2.1)) := by
  induction m with
  | nil => rfl
  | cons e m ih =>
      rw [removeFirstIdx]
      by_cases h : e.2.1 = i
      · simp [removeFirstFin, h]
      · simp only [List.map_cons, removeFirstFin, if_neg h, ih]

theorem purgeP_append (q₁ q₂ : List (Fin n)) (r : Fin n → Nat) :
    purgeP (q₁ ++ q₂) r =
      ((purgeP q₁ r).1 ++ (purgeP q₂ (purgeP q₁ r).2).1,
       (purgeP q₂ (purgeP q₁ r).2).2) := by
  induction q₁ generalizing r with
  | nil => simp [purgeP]
  | cons i rest ih =>
      by_cases h : r i = 0 <;> simp [purgeP, h, ih]

theorem purgeP_leftover (q : List (Fin n)) (r : Fin n → Nat) (i : Fin n)
    (h : r i ≤ q.count i) : (purgeP q r).2 i = 0 := by
  induction q generalizing r with
  | nil => simpa [purgeP] using Nat.le_antisymm h (Nat.zero_le _)
  | cons j rest ih =>
      rw [List.count_cons] at h
      by_cases hj : r j = 0
      · rw [purgeP, if_pos hj]
        by_cases hij : j = i
        · subst hij
          exact ih r (hj ▸ Nat.zero_le _)
        · apply ih
          simpa [beq_iff_eq, hij] using h
      · rw [purgeP, if_neg hj]
        by_cases hij : j = i
        · subst hij
          apply ih
          rw [Function.update_same]
          simp at h
          omega
        · apply ih
          rw [Function.update_noteq (fun hh => hij hh.symm)]
          simpa [beq_iff_eq, hij] using h

theorem adjust_purgeP (q : List (Fin n)) (r : Fin n → Nat) :
    purgeP (MQB.adjust_deque q r).1 (MQB.adjust_deque q r).2 = purgeP q r := by
  induction q generalizing r with
  | nil => rfl
  | cons i rest ih =>
      by_cases h : r i = 0
      · rw [MQB.adjust_deque, if_pos h]
      · rw [MQB.adjust_deque, if_neg h, purgeP, if_neg h, ih]

theorem adjust_head (q : List (Fin n)) (r : Fin n → Nat) (j : Fin n)
    (rest' : List (Fin n)) (h : (MQB.adjust_deque q r).1 = j :: rest') :
    (MQB.adjust_deque q r).2 j = 0 := by
  induction q generalizing r with
  | nil => simp [MQB.adjust_deque] at h
  | cons i rest ih =>
      by_cases hi : r i = 0
      · rw [MQB.adjust_deque, if_pos hi] at h ⊢
        obtain ⟨rfl, -⟩ := List.cons.inj h
        exact hi
      · rw [MQB.adjust_deque, if_neg hi] at h ⊢
        exact ih _ h

theorem adjust_count (q : List (Fin n)) (r : Fin n → Nat) (i : Fin n) :
    (MQB.adjust_deque q r).1.count i + r i =
      q.count i + (MQB.adjust_deque q r).2 i := by
  induction q generalizing r with
  | nil => rfl
  | cons j rest ih =>
      by_cases hj : r j = 0
      · rw [MQB.adjust_deque, if_pos hj]
      · rw [MQB.adjust_deque, if_neg hj]
        have := ih (Function.update r j (r j - 1))
        by_cases hij : j = i
        · subst hij
          rw [Function.update_same] at this
          rw [List.count_cons]
          simp only [beq_self_eq_true, if_true]
          omega
        · rw [Function.update_noteq (fun hh => hij hh.symm)] at this
          rw [List.count_cons]
          simp only [beq_iff_eq, hij, if_false]
          omega

theorem purge_cons_zero {r : Fin n → Nat} {i : Fin n} (h : r i = 0)
    (q : List (Fin n)) : purge (i :: q) r = i :: purge q r := by
  simp [purge, purgeP, h]

theorem purge_cons_pos {r : Fin n → Nat} {i : Fin n} (h : r i ≠ 0)
    (q : List (Fin n)) :
    purge (i :: q) r = purge q (Function.update r i (r i - 1)) := by
  simp [purge, purgeP, h]

theorem purge_incr (q : List (Fin n)) (r : Fin n → Nat) (i : Fin n) :
    purge q (Function.update r i (r i + 1)) = removeFirstFin i (purge q r) := by
  induction q generalizing r with
  | nil => rfl
  | cons j rest ih =>
      by_cases hij : j = i
      · subst hij
        have hne : Function.update r j (r j + 1) j ≠ 0 := by
          rw [Function.update_same]; omega
        have hl : purge (j :: rest) (Function.update r j (r j + 1)) =
            purge rest (Function.update r j (r j)) := by
          rw [purge_cons_pos hne, Function.update_same, Nat.add_sub_cancel,
            Function.update_idem]
        rw [hl, Function.update_eq_self]
        by_cases hj : r j = 0
        · rw [purge_cons_zero hj, removeFirstFin, if_pos rfl]
        · rw [purge_cons_pos hj]
          have := ih (Function.update r j (r j - 1))
          have h1 : r j - 1 + 1 = r j := by omega
          rw [Function.update_idem, Function.update_same, h1,
            Function.update_eq_self] at this
          exact this
      · have hru : Function.update r i (r i + 1) j = r j :=
          Function.update_noteq hij _ _
        by_cases hj : r j = 0
        · rw [purge_cons_zero (hru.trans hj), purge_cons_zero hj, ih,
            removeFirstFin, if_neg hij]
        · rw [purge_cons_pos (fun hh => hj (hru ▸ hh)), purge_cons_pos hj, hru,
            Function.update_comm (fun hh => hij hh.symm)]
          have := ih (Function.update r j (r j - 1))
          rw [Function.update_noteq (fun hh => hij hh.symm)] at this
          exact this

theorem length_eq_sum_count (q : List (Fin n)) :
    q.length = ∑ i : Fin n, q.count i := by
  induction q with
  | nil => simp
  | cons j rest ih =>
      simp only [List.length_cons, List.count_cons, Finset.sum_add_distrib, ← ih]
      simp [beq_iff_eq]

theorem sum_valuesAt_length (m : AbsQ α n) :
    (∑ i : Fin n, (valuesAt i m).length) = m.length := by
  induction m with
  | nil => simp [valuesAt]
  | cons e m ih =>
      have hlen : ∀ i : Fin n, (valuesAt i (e :: m)).length =
          (valuesAt i m).length + (if e.2.1 = i then 1 else 0) := by
        intro i
        rw [valuesAt_cons]
        by_cases h : e.2.1 = i <;> simp [h]
      simp only [hlen, Finset.sum_add_distrib, ih, List.length_cons]
      simp

/-! ## Simulation relations

`RA s m c` (resp. `RB s m`) says the concrete variant-A (variant-B) state
`s` realises the abstract journal `m` with counter `c`. -/

/-- Variant A realises journal `m` with counter `c`: each sub-queue holds
exactly its journal entries in order, the counters agree, tags strictly
increase along the journal, and all tags are below the counter. -/
structure RA (s : StateA α n) (m : AbsQ α n) (c : Nat) : Prop where
  hq : ∀ i, s.queues_ i = entriesAt i m
  hc : s.count_ = c
  hl : s.length_ = m.length
  hsort : m.Pairwise (fun a b => a.1 < b.1)
  hlt : ∀ e ∈ m, e.1 < c

/-- Variant B realises journal `m`: each sub-queue holds its journal
values in order, the index queue counts each sub-queue `remain_ i` stale
entries plus its live ones, purging the stale entries leaves exactly the
journal's sub-queue indices in order, and the index queue's front entry
is never stale. -/
structure RB (s : StateB α n) (m : AbsQ α n) : Prop where
  hd : ∀ i, s.data_queue_ i = valuesAt i m
  hl : s.length_ = m.length
  hcount : ∀ i, s.index_queue_.count i = s.remain_ i + (valuesAt i m).length
  hpurge : purge s.index_queue_ s.remain_ = m.map (fun e => e.2.1)
  hhead : ∀ j rest, s.index_queue_ = j :: rest → s.remain_ j = 0

theorem RA_init : RA (MQA.init α n) [] 0 :=
  ⟨fun _ => rfl, rfl, rfl, List.Pairwise.nil, fun e he => absurd he (List.not_mem_nil e)⟩

theorem RB_init : RB (MQB.init α n) [] :=
  ⟨fun _ => rfl, rfl, fun _ => rfl, rfl, fun _ _ h => by cases h⟩

/-! ## Characterising `find_oldest_front` -/

/-- The scan keeps an accumulator whose tag is a lower bound of every
remaining non-empty front. -/
theorem scan_keep (qs : Fin n → List (Nat × α)) (l : List (Fin n)) (i0 : Fin n)
    (t : Nat)
    (h : ∀ j ∈ l, ∀ t' d' tl, qs j = (t', d') :: tl → t ≤ t') :
    MQA.scan n qs l (i0.val, t) = (i0.val, t) := by
  induction l with
  | nil => rfl
  | cons j rest ih =>
      rw [MQA.scan]
      cases hqj : qs j with
      | nil => exact ih fun j' hj' => h j' (List.mem_cons_of_mem _ hj')
      | cons p tl =>
          obtain ⟨t', d'⟩ := p
          have ht : t ≤ t' := h j (List.mem_cons_self _ _) t' d' tl hqj
          show MQA.scan n qs rest
              (if i0.val < n ∧ t ≤ t' then (i0.val, t) else (j.val, t')) =
            (i0.val, t)
          rw [if_pos ⟨i0.isLt, ht⟩]
          exact ih fun j' hj' => h j' (List.mem_cons_of_mem _ hj')

/-- The scan returns the index of the unique queue whose front tag is the
strict minimum of all non-empty front tags. -/
theorem scan_finds (qs : Fin n → List (Nat × α)) (i0 : Fin n) (t : Nat)
    (d : α) (tl0 : List (Nat × α)) (hq : qs i0 = (t, d) :: tl0) :
    ∀ l : List (Fin n),
      (∀ j ∈ l, j ≠ i0 → ∀ t' d' tl, qs j = (t', d') :: tl → t < t') →
      ∀ acc : Nat × Nat, i0 ∈ l → (acc = (n, 0) ∨ (acc.1 < n ∧ t < acc.2)) →
      MQA.scan n qs l acc = (i0.val, t) := by
  intro l
  induction l with
  | nil => intro _ acc hmem _; cases hmem
  | cons j rest ih =>
      intro hmin acc hmem hacc
      have hmin' : ∀ j' ∈ rest, j' ≠ i0 → ∀ t' d' tl,
          qs j' = (t', d') :: tl → t < t' :=
        fun j' hj' => hmin j' (List.mem_cons_of_mem _ hj')
      rw [MQA.scan]
      by_cases hji : j = i0
      · rw [hji, hq]
        have hcond : ¬(acc.1 < n ∧ acc.2 ≤ t) := by
          rcases hacc with h1 | ⟨h1, h2⟩
          · rw [h1]; intro hc; exact absurd hc.1 (lt_irrefl n)
          · intro hc; omega
        show MQA.scan n qs rest
            (if acc.1 < n ∧ acc.2 ≤ t then acc else (i0.val, t)) = (i0.val, t)
        rw [if_neg hcond]
        apply scan_keep
        intro j' hj' t' d' tl hq'
        by_cases hji' : j' = i0
        · rw [hji', hq] at hq'
          injection hq' with hp _
          injection hp with hpt _
          omega
        · exact le_of_lt
            (hmin j' (List.mem_cons_of_mem _ hj') hji' t' d' tl hq')
      · have hmem' : i0 ∈ rest := by
          rcases List.mem_cons.1 hmem with h1 | h1
          · exact absurd h1.symm hji
          · exact h1
        cases hqj : qs j with
        | nil => exact ih hmin' acc hmem' hacc
        | cons p tl =>
            obtain ⟨t', d'⟩ := p
            have ht' : t < t' := hmin j (List.mem_cons_self _ _) hji t' d' tl hqj
            show MQA.scan n qs rest
                (if acc.1 < n ∧ acc.2 ≤ t' then acc else (j.val, t')) =
              (i0.val, t)
            by_cases hcond : acc.1 < n ∧ acc.2 ≤ t'
            · rw [if_pos hcond]
              exact ih hmin' acc hmem' hacc
            · rw [if_neg hcond]
              exact ih hmin' (j.val, t') hmem' (Or.inr ⟨j.isLt, ht'⟩)

/-- `find_oldest_front` on a state whose sub-queue `i0` has the strictly
minimal front tag returns `i0`. -/
theorem find_oldest_front_eq (s : StateA α n) (i0 : Fin n) (t : Nat) (d : α)
    (tl0 : List (Nat × α)) (hq : s.queues_ i0 = (t, d) :: tl0)
    (hmin : ∀ j, j ≠ i0 → ∀ t' d' tl, s.queues_ j = (t', d') :: tl → t < t') :
    MQA.find_oldest_front s = i0.val := by
  rw [MQA.find_oldest_front,
    scan_finds s.queues_ i0 t d tl0 hq (List.finRange n)
      (fun j _ hji => hmin j hji) (n, 0) (List.mem_finRange i0) (Or.inl rfl)]

/-! ## Consequences of the simulation relations at a non-empty journal -/

/-- In a variant-A state realising journal `e :: m'`, the scan finds the
sub-queue owning `e`, whose front is `e`, and `front()` returns `e`'s
value. -/
theorem RA_head {s : StateA α n} {m : AbsQ α n} {c : Nat} (hR : RA s m c)
    (e : Entry α n) (m' : AbsQ α n) (hm : m = e :: m') :
    s.queues_ e.2.1 = (e.1, e.2.2) :: entriesAt e.2.1 m' ∧
    MQA.find_oldest_front s = e.2.1.val ∧
    MQA.front s = some e.2.2 := by
  have hq : s.queues_ e.2.1 = (e.1, e.2.2) :: entriesAt e.2.1 m' := by
    rw [hR.hq e.2.1, hm, entriesAt_cons, if_pos rfl]
  have hm'lt : ∀ x ∈ m', e.1 < x.1 := by
    have := hR.hsort
    rw [hm] at this
    exact (List.pairwise_cons.1 this).1
  have hmin : ∀ j, j ≠ e.2.1 → ∀ t' d' tl,
      s.queues_ j = (t', d') :: tl → e.1 < t' := by
    intro j hj t' d' tl hqj
    have hmem : (t', d') ∈ entriesAt j m := by
      rw [← hR.hq j, hqj]; exact List.mem_cons_self _ _
    have := mem_of_mem_entriesAt hmem
    rw [hm] at this
    rcases List.mem_cons.1 this with h1 | h1
    · exfalso
      apply hj
      rw [← h1]
    · exact hm'lt _ h1
  have hfind := find_oldest_front_eq s e.2.1 e.1 e.2.2 _ hq hmin
  refine ⟨hq, hfind, ?_⟩
  rw [MQA.front, if_pos ?_]
  · rw [dif_pos (hfind ▸ e.2.1.isLt)]
    have : (⟨MQA.find_oldest_front s, hfind ▸ e.2.1.isLt⟩ : Fin n) = e.2.1 :=
      Fin.ext hfind
    rw [this, hq]
    rfl
  · rw [hR.hl, hm]
    exact Nat.succ_pos _

/-- In a variant-B state realising journal `e :: m'`, the index queue's
front names `e`'s sub-queue (and is live), that sub-queue's front is
`e`'s value, and `front()` returns it. -/
theorem RB_head {s : StateB α n} {m : AbsQ α n} (hR : RB s m)
    (e : Entry α n) (m' : AbsQ α n) (hm : m = e :: m') :
    ∃ rest, s.index_queue_ = e.2.1 :: rest ∧
      purge rest s.remain_ = m'.map (fun x => x.2.1) ∧
      s.remain_ e.2.1 = 0 ∧
      s.data_queue_ e.2.1 = e.2.2 :: valuesAt e.2.1 m' ∧
      MQB.front s = some e.2.2 := by
  have hd : s.data_queue_ e.2.1 = e.2.2 :: valuesAt e.2.1 m' := by
    rw [hR.hd e.2.1, hm, valuesAt_cons, if_pos rfl]
  cases hidx : s.index_queue_ with
  | nil =>
      exfalso
      have hp := hR.hpurge
      rw [hidx, hm] at hp
      simp [purge, purgeP] at hp
  | cons j rest =>
      have hr0 : s.remain_ j = 0 := hR.hhead j rest hidx
      have hp := hR.hpurge
      rw [hidx, purge_cons_zero hr0, hm, List.map_cons] at hp
      obtain ⟨hj, hrest⟩ := List.cons.inj hp
      subst hj
      refine ⟨rest, rfl, hrest, hr0, hd, ?_⟩
      rw [MQB.front, hidx]
      show (s.data_queue_ e.2.1).head? = some e.2.2
      rw [hd]
      rfl

/-- In any variant-B state realising a journal, the index queue is empty
exactly when the journal is. -/
theorem RB_empty_iff {s : StateB α n} {m : AbsQ α n} (hR : RB s m) :
    s.index_queue_ = [] ↔ m = [] := by
  constructor
  · intro h
    have := hR.hpurge
    rw [h] at this
    have : m.map (fun e => e.2.1) = [] := by simpa [purge, purgeP] using this.symm
    exact List.map_eq_nil_iff.1 this
  · intro h
    cases hidx : s.index_queue_ with
    | nil => rfl
    | cons j rest =>
        exfalso
        have hc := hR.hcount j
        rw [hidx, h, List.count_cons] at hc
        simp [valuesAt, hR.hhead j rest hidx] at hc

/-! ## Unfolding the variant-A mutators on their defined branches -/

theorem MQA.dequeue_pos {s : StateA α n} (hlen : 0 < s.length_)
    (hlt : MQA.find_oldest_front s < n) :
    MQA.dequeue s =
      some ⟨Function.update s.queues_ ⟨MQA.find_oldest_front s, hlt⟩
              (s.queues_ ⟨MQA.find_oldest_front s, hlt⟩).tail,
            if s.length_ - 1 = 0 then 0 else s.count_, s.length_ - 1⟩ := by
  rw [MQA.dequeue, if_pos hlen, dif_pos hlt]

theorem MQA.dequeueAt_pos {s : StateA α n} (i : Fin n)
    (hne : 0 < (s.queues_ i).length) :
    MQA.dequeueAt i.val s =
      some ⟨Function.update s.queues_ i (s.queues_ i).tail,
            if s.length_ - 1 = 0 then 0 else s.count_, s.length_ - 1⟩ := by
  rw [MQA.dequeueAt, dif_pos i.isLt, Fin.eta, if_pos hne]

theorem MQA.dequeueAt_noop {s : StateA α n} (i : Fin n)
    (hq : s.queues_ i = []) : MQA.dequeueAt i.val s = some s := by
  rw [MQA.dequeueAt, dif_pos i.isLt, Fin.eta, hq]
  rfl

/-! ## Preservation of `RA` by each legal operation -/

theorem RA_enq {s : StateA α n} {m : AbsQ α n} {c : Nat} (hR : RA s m c)
    (i : Fin n) (d : α) (hc : c < ULONG_MAX) :
    (MQA.enqueue i d s).1 = true ∧
    RA (MQA.enqueue i d s).2 (m ++ [(c, i, d)]) (c + 1) := by
  have hno : ¬ ULONG_MAX ≤ s.count_ := by rw [hR.hc]; omega
  rw [MQA.enqueue, if_neg hno]
  refine ⟨rfl, ?_, ?_, ?_, ?_, ?_⟩
  · intro j
    show Function.update s.queues_ i (s.queues_ i ++ [(s.count_, d)]) j =
      entriesAt j (m ++ [(c, i, d)])
    by_cases hij : j = i
    · subst hij
      rw [Function.update_same, entriesAt_append, hR.hq j, hR.hc]
      simp [entriesAt]
    · rw [Function.update_noteq hij, entriesAt_append, hR.hq j]
      simp [entriesAt, Ne.symm hij]
  · show s.count_ + 1 = c + 1
    rw [hR.hc]
  · show s.length_ + 1 = (m ++ [(c, i, d)]).length
    rw [hR.hl]
    simp
  · rw [List.pairwise_append]
    refine ⟨hR.hsort, List.pairwise_singleton _ _, ?_⟩
    intro a ha b hb
    rw [List.mem_singleton.1 hb]
    exact hR.hlt a ha
  · intro e he
    rcases List.mem_append.1 he with h1 | h1
    · exact Nat.lt_succ_of_lt (hR.hlt e h1)
    · rw [List.mem_singleton.1 h1]
      exact Nat.lt_succ_self c

/-- Popping sub-queue `i`'s front (as both `dequeue()` and `dequeue(i)`
do once the scan or the caller has located it) preserves `RA` against the
journal with its first `i`-entry removed. -/
theorem RA_pop {s : StateA α n} {m : AbsQ α n} {c : Nat} (hR : RA s m c)
    (i : Fin n) (hhas : hasIdx i m = true) :
    RA ⟨Function.update s.queues_ i (s.queues_ i).tail,
        if s.length_ - 1 = 0 then 0 else s.count_, s.length_ - 1⟩
      (removeFirstIdx i m)
      (if (removeFirstIdx i m).isEmpty then 0 else c) := by
  have hlen1 : (removeFirstIdx i m).length + 1 = m.length :=
    length_removeFirstIdx hhas
  refine ⟨?_, ?_, ?_, ?_, ?_⟩
  · intro j
    show Function.update s.queues_ i (s.queues_ i).tail j =
      entriesAt j (removeFirstIdx i m)
    by_cases hij : j = i
    · subst hij
      rw [Function.update_same, hR.hq j, entriesAt_removeFirstIdx_self]
    · rw [Function.update_noteq hij, hR.hq j,
        entriesAt_removeFirstIdx_ne hij]
  · show (if s.length_ - 1 = 0 then 0 else s.count_) = _
    have hl2 : s.length_ - 1 = (removeFirstIdx i m).length := by
      rw [hR.hl]; omega
    rw [hl2, hR.hc]
    cases hrm : removeFirstIdx i m with
    | nil => rfl
    | cons x xs => simp
  · show s.length_ - 1 = _
    rw [hR.hl]
    omega
  · exact List.Pairwise.sublist (removeFirstIdx_sublist i m) hR.hsort
  · intro e' he'
    have hmem : e' ∈ m := (removeFirstIdx_sublist i m).subset he'
    cases hrm : removeFirstIdx i m with
    | nil =>
        rw [hrm] at he'
        exact absurd he' (List.not_mem_nil e')
    | cons x xs =>
        simp only [List.isEmpty_cons, if_neg Bool.false_ne_true]
        exact hR.hlt e' hmem

theorem RA_deq {s : StateA α n} {m : AbsQ α n} {c : Nat} (hR : RA s m c)
    (e : Entry α n) (m' : AbsQ α n) (hm : m = e :: m') :
    MQA.dequeue s =
      some ⟨Function.update s.queues_ e.2.1 (s.queues_ e.2.1).tail,
            if s.length_ - 1 = 0 then 0 else s.count_, s.length_ - 1⟩ ∧
    RA ⟨Function.update s.queues_ e.2.1 (s.queues_ e.2.1).tail,
        if s.length_ - 1 = 0 then 0 else s.count_, s.length_ - 1⟩ m'
      (if m'.isEmpty then 0 else c) := by
  obtain ⟨hq, hfind, -⟩ := RA_head hR e m' hm
  have hlen : 0 < s.length_ := by
    rw [hR.hl, hm]; exact Nat.succ_pos _
  have hlt : MQA.find_oldest_front s < n := by rw [hfind]; exact e.2.1.isLt
  have hfin : (⟨MQA.find_oldest_front s, hlt⟩ : Fin n) = e.2.1 := Fin.ext hfind
  have hrm : removeFirstIdx e.2.1 m = m' := by
    rw [hm, removeFirstIdx, if_pos rfl]
  have hhas : hasIdx e.2.1 m = true :=
    hasIdx_iff.2 ⟨e, by rw [hm]; exact List.mem_cons_self _ _, rfl⟩
  constructor
  · rw [MQA.dequeue_pos hlen hlt, hfin]
  · have := RA_pop hR e.2.1 hhas
    rw [hrm] at this
    exact this

theorem RA_deqAt {s : StateA α n} {m : AbsQ α n} {c : Nat} (hR : RA s m c)
    (i : Fin n) (hhas : hasIdx i m = true) :
    MQA.dequeueAt i.val s =
      some ⟨Function.update s.queues_ i (s.queues_ i).tail,
            if s.length_ - 1 = 0 then 0 else s.count_, s.length_ - 1⟩ ∧
    RA ⟨Function.update s.queues_ i (s.queues_ i).tail,
        if s.length_ - 1 = 0 then 0 else s.count_, s.length_ - 1⟩
      (removeFirstIdx i m)
      (if (removeFirstIdx i m).isEmpty then 0 else c) := by
  have hne : 0 < (s.queues_ i).length := by
    rw [hR.hq i]
    exact List.length_pos.2 (entriesAt_ne_nil hhas)
  exact ⟨MQA.dequeueAt_pos i hne, RA_pop hR i hhas⟩

theorem valuesAt_ne_nil {i : Fin n} {m : AbsQ α n} (h : hasIdx i m = true) :
    valuesAt i m ≠ [] := by
  rw [valuesAt_eq_map]
  intro hc
  exact entriesAt_ne_nil h (List.map_eq_nil_iff.1 hc)

/-! ## Unfolding the variant-B mutators on their defined branches -/

theorem MQB.dequeue_cons {s : StateB α n} {i : Fin n} {rest : List (Fin n)}
    (hidx : s.index_queue_ = i :: rest) :
    MQB.dequeue s =
      some ⟨(MQB.adjust_deque rest s.remain_).1,
            Function.update s.data_queue_ i (s.data_queue_ i).tail,
            (MQB.adjust_deque rest s.remain_).2, s.length_ - 1⟩ := by
  rw [MQB.dequeue, hidx]

theorem MQB.dequeueAt_head {s : StateB α n} {i : Fin n} {rest : List (Fin n)}
    (hne : s.data_queue_ i ≠ []) (hidx : s.index_queue_ = i :: rest) :
    MQB.dequeueAt i.val s =
      some ⟨(MQB.adjust_deque rest s.remain_).1,
            Function.update s.data_queue_ i (s.data_queue_ i).tail,
            (MQB.adjust_deque rest s.remain_).2, s.length_ - 1⟩ := by
  have hemp : ¬ ((s.data_queue_ i).isEmpty = true) := by
    cases hcc : s.data_queue_ i with
    | nil => exact absurd hcc hne
    | cons a b => simp
  rw [MQB.dequeueAt, dif_pos i.isLt, Fin.eta, if_neg hemp, hidx]
  show some (if i = i then _ else _) = _
  rw [if_pos rfl]

theorem MQB.dequeueAt_tail {s : StateB α n} {i j : Fin n} {rest : List (Fin n)}
    (hne : s.data_queue_ i ≠ []) (hidx : s.index_queue_ = j :: rest)
    (hij : i ≠ j) :
    MQB.dequeueAt i.val s =
      some ⟨j :: rest,
            Function.update s.data_queue_ i (s.data_queue_ i).tail,
            Function.update s.remain_ i (s.remain_ i + 1), s.length_ - 1⟩ := by
  have hemp : ¬ ((s.data_queue_ i).isEmpty = true) := by
    cases hcc : s.data_queue_ i with
    | nil => exact absurd hcc hne
    | cons a b => simp
  rw [MQB.dequeueAt, dif_pos i.isLt, Fin.eta, if_neg hemp, hidx]
  show some (if i = j then _ else _) = _
  rw [if_neg hij]

/-! ## Preservation of `RB` by each legal operation -/

theorem RB_enq {s : StateB α n} {m : AbsQ α n} (hR : RB s m) (i : Fin n)
    (d : α) (c : Nat) : RB (MQB.enqueue i d s) (m ++ [(c, i, d)]) := by
  have hr2 : (purgeP s.index_queue_ s.remain_).2 i = 0 :=
    purgeP_leftover _ _ i (by rw [hR.hcount i]; omega)
  refine ⟨?_, ?_, ?_, ?_, ?_⟩
  · intro j
    show Function.update s.data_queue_ i (s.data_queue_ i ++ [d]) j =
      valuesAt j (m ++ [(c, i, d)])
    by_cases hij : j = i
    · subst hij
      rw [Function.update_same, valuesAt_append, hR.hd j]
      simp [valuesAt]
    · rw [Function.update_noteq hij, valuesAt_append, hR.hd j]
      simp [valuesAt, Ne.symm hij]
  · show s.length_ + 1 = (m ++ [(c, i, d)]).length
    rw [hR.hl]
    simp
  · intro j
    show List.count j (s.index_queue_ ++ [i]) =
      s.remain_ j + (valuesAt j (m ++ [(c, i, d)])).length
    rw [List.count_append, hR.hcount j, valuesAt_append, List.length_append]
    have h1 : List.count j [i] = if i = j then 1 else 0 := by
      simp [List.count_cons, beq_iff_eq]
    have h2 : (valuesAt j [(c, i, d)]).length = if i = j then 1 else 0 := by
      by_cases hij : i = j <;> simp [valuesAt, hij]
    rw [h1, h2]
    omega
  · show purge (s.index_queue_ ++ [i]) s.remain_ =
      (m ++ [(c, i, d)]).map (fun e => e.2.1)
    rw [purge, purgeP_append]
    show (purgeP s.index_queue_ s.remain_).1 ++
        (purgeP [i] (purgeP s.index_queue_ s.remain_).2).1 = _
    rw [show (purgeP [i] (purgeP s.index_queue_ s.remain_).2).1 = [i] by
      simp [purgeP, hr2]]
    rw [← purge, hR.hpurge, List.map_append]
    rfl
  · intro j rest' hidx
    replace hidx : s.index_queue_ ++ [i] = j :: rest' := hidx
    show s.remain_ j = 0
    cases hcase : s.index_queue_ with
    | nil =>
        rw [hcase] at hidx
        have h0 := hR.hcount j
        rw [hcase] at h0
        simp only [List.count_nil] at h0
        injection hidx with h1 _
        subst h1
        omega
    | cons k tl =>
        rw [hcase] at hidx
        injection hidx with h1 _
        subst h1
        exact hR.hhead k tl hcase

/-- Popping the index queue's (live) front entry together with its
sub-queue's front, then running `adjust_deque` — the shared tail of
`dequeue()` and of `dequeue(i)` when `i` is the index front — preserves
`RB` against the journal's tail. -/
theorem RB_popHead {s : StateB α n} {m : AbsQ α n} (hR : RB s m)
    (e : Entry α n) (m' : AbsQ α n) (hm : m = e :: m') {rest : List (Fin n)}
    (hidx : s.index_queue_ = e.2.1 :: rest) :
    RB ⟨(MQB.adjust_deque rest s.remain_).1,
        Function.update s.data_queue_ e.2.1 (s.data_queue_ e.2.1).tail,
        (MQB.adjust_deque rest s.remain_).2, s.length_ - 1⟩ m' := by
  have hr0 : s.remain_ e.2.1 = 0 := hR.hhead _ _ hidx
  have hprest : purge rest s.remain_ = m'.map (fun x => x.2.1) := by
    have hp := hR.hpurge
    rw [hidx, purge_cons_zero hr0, hm, List.map_cons] at hp
    exact (List.cons.inj hp).2
  refine ⟨?_, ?_, ?_, ?_, ?_⟩
  · intro j
    show Function.update s.data_queue_ e.2.1 (s.data_queue_ e.2.1).tail j =
      valuesAt j m'
    by_cases hij : j = e.2.1
    · rw [hij, Function.update_same, hR.hd, hm, valuesAt_cons, if_pos rfl]
      rfl
    · rw [Function.update_noteq hij, hR.hd, hm, valuesAt_cons,
        if_neg (fun hh => hij hh.symm)]
  · show s.length_ - 1 = m'.length
    rw [hR.hl, hm]
    simp
  · intro j
    show List.count j (MQB.adjust_deque rest s.remain_).1 =
      (MQB.adjust_deque rest s.remain_).2 j + (valuesAt j m').length
    have hac := adjust_count rest s.remain_ j
    have hcnt := hR.hcount j
    rw [hidx, List.count_cons] at hcnt
    simp only [beq_iff_eq] at hcnt
    have hvm : (valuesAt j m).length =
        (valuesAt j m').length + (if e.2.1 = j then 1 else 0) := by
      rw [hm, valuesAt_cons]
      by_cases hj : e.2.1 = j <;> simp [hj]
    rw [hvm] at hcnt
    by_cases hj : e.2.1 = j
    · rw [if_pos hj] at hcnt
      omega
    · rw [if_neg hj] at hcnt
      omega
  · show purge (MQB.adjust_deque rest s.remain_).1
        (MQB.adjust_deque rest s.remain_).2 = m'.map (fun e => e.2.1)
    rw [purge, adjust_purgeP, ← purge, hprest]
  · intro j rest' hadj
    exact adjust_head rest s.remain_ j rest' hadj

theorem RB_deq {s : StateB α n} {m : AbsQ α n} (hR : RB s m) (e : Entry α n)
    (m' : AbsQ α n) (hm : m = e :: m') :
    ∃ rest, s.index_queue_ = e.2.1 :: rest ∧
      MQB.dequeue s =
        some ⟨(MQB.adjust_deque rest s.remain_).1,
              Function.update s.data_queue_ e.2.1 (s.data_queue_ e.2.1).tail,
              (MQB.adjust_deque rest s.remain_).2, s.length_ - 1⟩ ∧
      RB ⟨(MQB.adjust_deque rest s.remain_).1,
          Function.update s.data_queue_ e.2.1 (s.data_queue_ e.2.1).tail,
          (MQB.adjust_deque rest s.remain_).2, s.length_ - 1⟩ m' := by
  obtain ⟨rest, hidx, -, -, -, -⟩ := RB_head hR e m' hm
  exact ⟨rest, hidx, MQB.dequeue_cons hidx, RB_popHead hR e m' hm hidx⟩

theorem RB_deqAt {s : StateB α n} {m : AbsQ α n} (hR : RB s m) (i : Fin n)
    (hhas : hasIdx i m = true) :
    ∃ s' : StateB α n, MQB.dequeueAt i.val s = some s' ∧
      RB s' (removeFirstIdx i m) ∧
      (∀ j, j ≠ i → s'.data_queue_ j = s.data_queue_ j) ∧
      s'.data_queue_ i = (s.data_queue_ i).tail ∧
      s'.length_ = s.length_ - 1 := by
  have hdne : s.data_queue_ i ≠ [] := by
    rw [hR.hd i]
    exact valuesAt_ne_nil hhas
  cases m with
  | nil => simp [hasIdx] at hhas
  | cons e m' =>
      obtain ⟨rest, hidx, hrest, hr0, hd, -⟩ := RB_head hR e m' rfl
      by_cases hie : i = e.2.1
      · subst hie
        refine ⟨_, MQB.dequeueAt_head hdne hidx, ?_, ?_, ?_, ?_⟩
        · have hrm : removeFirstIdx e.2.1 (e :: m') = m' := by
            rw [removeFirstIdx, if_pos rfl]
          rw [hrm]
          exact RB_popHead hR e m' rfl hidx
        · intro j hj
          exact Function.update_noteq hj _ _
        · exact Function.update_same _ _ _
        · rfl
      · refine ⟨_, MQB.dequeueAt_tail hdne hidx hie, ?_, ?_, ?_, ?_⟩
        · have hhas' : hasIdx i (e :: m') = true := hhas
          refine ⟨?_, ?_, ?_, ?_, ?_⟩
          · intro j
            show Function.update s.data_queue_ i (s.data_queue_ i).tail j =
              valuesAt j (removeFirstIdx i (e :: m'))
            by_cases hij : j = i
            · subst hij
              rw [Function.update_same, hR.hd j, valuesAt_removeFirstIdx_self]
            · rw [Function.update_noteq hij, hR.hd j,
                valuesAt_removeFirstIdx_ne hij]
          · show s.length_ - 1 = (removeFirstIdx i (e :: m')).length
            have h1 := length_removeFirstIdx hhas'
            rw [hR.hl]
            omega
          · intro j
            show List.count j (e.2.1 :: rest) =
              Function.update s.remain_ i (s.remain_ i + 1) j +
                (valuesAt j (removeFirstIdx i (e :: m'))).length
            have hcnt := hR.hcount j
            rw [hidx] at hcnt
            by_cases hji : j = i
            · subst hji
              rw [Function.update_same, valuesAt_removeFirstIdx_self,
                List.length_tail]
              have hpos : 0 < (valuesAt j (e :: m')).length :=
                List.length_pos.2 (valuesAt_ne_nil hhas')
              omega
            · rw [Function.update_noteq hji, valuesAt_removeFirstIdx_ne hji]
              exact hcnt
          · show purge (e.2.1 :: rest)
                (Function.update s.remain_ i (s.remain_ i + 1)) =
              (removeFirstIdx i (e :: m')).map (fun x => x.2.1)
            rw [purge_incr, ← hidx, hR.hpurge, mapIdx_removeFirstIdx]
          · intro j rest' hj
            injection hj with h1 _
            subst h1
            show Function.update s.remain_ i (s.remain_ i + 1) e.2.1 = 0
            rw [Function.update_noteq (fun hh => hie hh.symm)]
            exact hR.hhead _ _ hidx
        · intro j hj
          exact Function.update_noteq hj _ _
        · exact Function.update_same _ _ _
        · rfl

/-! ## The master simulation over legal traces -/

theorem stepA_deq_eq {sA st : StateA α n} (h : MQA.dequeue sA = some st) :
    stepA sA Op.deq = st := by
  show (MQA.dequeue sA).getD sA = st
  rw [h]
  rfl

theorem stepA_deqAt_eq {sA st : StateA α n} (i : Fin n)
    (h : MQA.dequeueAt i.val sA = some st) : stepA sA (Op.deqAt i) = st := by
  show (MQA.dequeueAt i.val sA).getD sA = st
  rw [h]
  rfl

theorem stepB_deq_eq {sB st : StateB α n} (h : MQB.dequeue sB = some st) :
    stepB sB Op.deq = st := by
  show (MQB.dequeue sB).getD sB = st
  rw [h]
  rfl

theorem stepB_deqAt_eq {sB st : StateB α n} (i : Fin n)
    (h : MQB.dequeueAt i.val sB = some st) : stepB sB (Op.deqAt i) = st := by
  show (MQB.dequeueAt i.val sB).getD sB = st
  rw [h]
  rfl

/-- Both variants, run side by side from related states along any trace
that the abstract journal accepts, stay related to the journal. -/
theorem sim_from (ops : List (Op α n)) :
    ∀ (sA : StateA α n) (sB : StateB α n) (m : AbsQ α n) (c : Nat)
      (m₂ : AbsQ α n) (c₂ : Nat), RA sA m c → RB sB m →
      runMFrom (m, c) ops = some (m₂, c₂) →
      RA (runAFrom sA ops) m₂ c₂ ∧ RB (runBFrom sB ops) m₂ := by
  induction ops with
  | nil =>
      intro sA sB m c m₂ c₂ hA hB hrun
      rw [runMFrom] at hrun
      injection hrun with h
      injection h with h1 h2
      subst h1
      subst h2
      exact ⟨hA, hB⟩
  | cons op ops ih =>
      intro sA sB m c m₂ c₂ hA hB hrun
      rw [runMFrom] at hrun
      cases op with
      | enq i d =>
          by_cases hc : c < ULONG_MAX
          · have hstep : stepM (m, c) (Op.enq i d) =
                some (m ++ [(c, i, d)], c + 1) := by
              show (if c < ULONG_MAX then _ else _) = _
              rw [if_pos hc]
            rw [hstep] at hrun
            replace hrun :
                runMFrom (m ++ [(c, i, d)], c + 1) ops = some (m₂, c₂) := hrun
            have hAe := RA_enq hA i d hc
            exact ih _ _ _ _ _ _ hAe.2 (RB_enq hB i d c) hrun
          · exfalso
            have hstep : stepM (m, c) (Op.enq i d) = none := by
              show (if c < ULONG_MAX then _ else _) = _
              rw [if_neg hc]
            rw [hstep] at hrun
            exact Option.noConfusion hrun
      | deq =>
          cases m with
          | nil =>
              exfalso
              have hstep : stepM (([] : AbsQ α n), c) Op.deq = none := rfl
              rw [hstep] at hrun
              exact Option.noConfusion hrun
          | cons e m' =>
              have hstep : stepM (e :: m', c) Op.deq =
                  some (m', if m'.isEmpty then 0 else c) := rfl
              rw [hstep] at hrun
              replace hrun :
                  runMFrom (m', if m'.isEmpty then 0 else c) ops =
                    some (m₂, c₂) := hrun
              obtain ⟨heq, hA'⟩ := RA_deq hA e m' rfl
              obtain ⟨rest, hidx, heqB, hB'⟩ := RB_deq hB e m' rfl
              have hA2 : RA (stepA sA Op.deq) m'
                  (if m'.isEmpty then 0 else c) := by
                rw [stepA_deq_eq heq]
                exact hA'
              have hB2 : RB (stepB sB Op.deq) m' := by
                rw [stepB_deq_eq heqB]
                exact hB'
              exact ih _ _ _ _ _ _ hA2 hB2 hrun
      | deqAt i =>
          by_cases hhas : hasIdx i m = true
          · have hstep : stepM (m, c) (Op.deqAt i) =
                some (removeFirstIdx i m,
                      if (removeFirstIdx i m).isEmpty then 0 else c) := by
              show (if hasIdx i m = true then _ else _) = _
              rw [if_pos hhas]
            rw [hstep] at hrun
            replace hrun :
                runMFrom (removeFirstIdx i m,
                  if (removeFirstIdx i m).isEmpty then 0 else c) ops =
                  some (m₂, c₂) := hrun
            obtain ⟨heq, hA'⟩ := RA_deqAt hA i hhas
            obtain ⟨sB', heqB, hB', -, -, -⟩ := RB_deqAt hB i hhas
            have hA2 : RA (stepA sA (Op.deqAt i)) (removeFirstIdx i m)
                (if (removeFirstIdx i m).isEmpty then 0 else c) := by
              rw [stepA_deqAt_eq i heq]
              exact hA'
            have hB2 : RB (stepB sB (Op.deqAt i)) (removeFirstIdx i m) := by
              rw [stepB_deqAt_eq i heqB]
              exact hB'
            exact ih _ _ _ _ _ _ hA2 hB2 hrun
          · exfalso
            have hstep : stepM (m, c) (Op.deqAt i) = none := by
              show (if hasIdx i m = true then _ else _) = _
              rw [if_neg hhas]
            rw [hstep] at hrun
            exact Option.noConfusion hrun

/-- Any legal trace leaves both variants related to its journal. -/
theorem sim (ops : List (Op α n)) (m : AbsQ α n) (c : Nat)
    (h : runM ops = some (m, c)) : RA (runA ops) m c ∧ RB (runB ops) m :=
  sim_from ops (MQA.init α n) (MQB.init α n) [] 0 m c RA_init RB_init h

/-- The journal's counter is `0` whenever the journal is empty. -/
theorem runMFrom_drain (ops : List (Op α n)) :
    ∀ (m : AbsQ α n) (c : Nat) (m₂ : AbsQ α n) (c₂ : Nat),
      runMFrom (m, c) ops = some (m₂, c₂) → (m = [] → c = 0) →
      (m₂ = [] → c₂ = 0) := by
  induction ops with
  | nil =>
      intro m c m₂ c₂ hrun h0
      rw [runMFrom] at hrun
      injection hrun with h
      injection h with h1 h2
      subst h1
      subst h2
      exact h0
  | cons op ops ih =>
      intro m c m₂ c₂ hrun h0
      rw [runMFrom] at hrun
      cases op with
      | enq i d =>
          by_cases hc : c < ULONG_MAX
          · have hstep : stepM (m, c) (Op.enq i d) =
                some (m ++ [(c, i, d)], c + 1) := by
              show (if c < ULONG_MAX then _ else _) = _
              rw [if_pos hc]
            rw [hstep] at hrun
            replace hrun :
                runMFrom (m ++ [(c, i, d)], c + 1) ops = some (m₂, c₂) := hrun
            exact ih _ _ _ _ hrun (fun hnil => absurd hnil (by simp))
          · exfalso
            have hstep : stepM (m, c) (Op.enq i d) = none := by
              show (if c < ULONG_MAX then _ else _) = _
              rw [if_neg hc]
            rw [hstep] at hrun
            exact Option.noConfusion hrun
      | deq =>
          cases m with
          | nil =>
              exfalso
              have hstep : stepM (([] : AbsQ α n), c) Op.deq = none := rfl
              rw [hstep] at hrun
              exact Option.noConfusion hrun
          | cons e m' =>
              have hstep : stepM (e :: m', c) Op.deq =
                  some (m', if m'.isEmpty then 0 else c) := rfl
              rw [hstep] at hrun
              replace hrun :
                  runMFrom (m', if m'.isEmpty then 0 else c) ops =
                    some (m₂, c₂) := hrun
              refine ih _ _ _ _ hrun ?_
              intro hnil
              rw [hnil]
              rfl
      | deqAt i =>
          by_cases hhas : hasIdx i m = true
          · have hstep : stepM (m, c) (Op.deqAt i) =
                some (removeFirstIdx i m,
                      if (removeFirstIdx i m).isEmpty then 0 else c) := by
              show (if hasIdx i m = true then _ else _) = _
              rw [if_pos hhas]
            rw [hstep] at hrun
            replace hrun :
                runMFrom (removeFirstIdx i m,
                  if (removeFirstIdx i m).isEmpty then 0 else c) ops =
                  some (m₂, c₂) := hrun
            refine ih _ _ _ _ hrun ?_
            intro hnil
            rw [hnil]
            rfl
          · exfalso
            have hstep : stepM (m, c) (Op.deqAt i) = none := by
              show (if hasIdx i m = true then _ else _) = _
              rw [if_neg hhas]
            rw [hstep] at hrun
            exact Option.noConfusion hrun

/-- On a legal trace, draining the journal resets the counter. -/
theorem runM_drain (ops : List (Op α n)) (m : AbsQ α n) (c : Nat)
    (h : runM ops = some (m, c)) (hm : m = []) : c = 0 :=
  runMFrom_drain ops [] 0 m c h (fun _ => rfl) hm

/-- The journal's counter never exceeds `ULONG_MAX` along a legal trace. -/
theorem runMFrom_cle (ops : List (Op α n)) :
    ∀ (m : AbsQ α n) (c : Nat) (m₂ : AbsQ α n) (c₂ : Nat),
      runMFrom (m, c) ops = some (m₂, c₂) → c ≤ ULONG_MAX →
      c₂ ≤ ULONG_MAX := by
  induction ops with
  | nil =>
      intro m c m₂ c₂ hrun h0
      rw [runMFrom] at hrun
      injection hrun with h
      injection h with h1 h2
      subst h1
      subst h2
      exact h0
  | cons op ops ih =>
      intro m c m₂ c₂ hrun h0
      rw [runMFrom] at hrun
      cases op with
      | enq i d =>
          by_cases hc : c < ULONG_MAX
          · have hstep : stepM (m, c) (Op.enq i d) =
                some (m ++ [(c, i, d)], c + 1) := by
              show (if c < ULONG_MAX then _ else _) = _
              rw [if_pos hc]
            rw [hstep] at hrun
            replace hrun :
                runMFrom (m ++ [(c, i, d)], c + 1) ops = some (m₂, c₂) := hrun
            exact ih _ _ _ _ hrun (by omega)
          · exfalso
            have hstep : stepM (m, c) (Op.enq i d) = none := by
              show (if c < ULONG_MAX then _ else _) = _
              rw [if_neg hc]
            rw [hstep] at hrun
            exact Option.noConfusion hrun
      | deq =>
          cases m with
          | nil =>
              exfalso
              have hstep : stepM (([] : AbsQ α n), c) Op.deq = none := rfl
              rw [hstep] at hrun
              exact Option.noConfusion hrun
          | cons e m' =>
              have hstep : stepM (e :: m', c) Op.deq =
                  some (m', if m'.isEmpty then 0 else c) := rfl
              rw [hstep] at hrun
              replace hrun :
                  runMFrom (m', if m'.isEmpty then 0 else c) ops =
                    some (m₂, c₂) := hrun
              refine ih _ _ _ _ hrun ?_
              by_cases he : m'.isEmpty = true
              · rw [if_pos he]
                exact Nat.zero_le _
              · rw [if_neg he]
                exact h0
      | deqAt i =>
          by_cases hhas : hasIdx i m = true
          · have hstep : stepM (m, c) (Op.deqAt i) =
                some (removeFirstIdx i m,
                      if (removeFirstIdx i m).isEmpty then 0 else c) := by
              show (if hasIdx i m = true then _ else _) = _
              rw [if_pos hhas]
            rw [hstep] at hrun
            replace hrun :
                runMFrom (removeFirstIdx i m,
                  if (removeFirstIdx i m).isEmpty then 0 else c) ops =
                  some (m₂, c₂) := hrun
            refine ih _ _ _ _ hrun ?_
            by_cases he : (removeFirstIdx i m).isEmpty = true
            · rw [if_pos he]
              exact Nat.zero_le _
            · rw [if_neg he]
              exact h0
          · exfalso
            have hstep : stepM (m, c) (Op.deqAt i) = none := by
              show (if hasIdx i m = true then _ else _) = _
              rw [if_neg hhas]
            rw [hstep] at hrun
            exact Option.noConfusion hrun

theorem runM_cle (ops : List (Op α n)) (m : AbsQ α n) (c : Nat)
    (h : runM ops = some (m, c)) : c ≤ ULONG_MAX :=
  runMFrom_cle ops [] 0 m c h (Nat.zero_le _)

theorem runAFrom_append (s : StateA α n) (l₁ l₂ : List (Op α n)) :
    runAFrom s (l₁ ++ l₂) = runAFrom (runAFrom s l₁) l₂ := by
  induction l₁ generalizing s with
  | nil => rfl
  | cons op l₁ ih =>
      rw [List.cons_append, runAFrom, runAFrom]
      exact ih _

/-- A sorted journal's per-sub-queue view has strictly increasing tags. -/
theorem entriesAt_pairwise_lt {m : AbsQ α n}
    (hs : m.Pairwise (fun a b => a.1 < b.1)) (j : Fin n) :
    (entriesAt j m).Pairwise (fun a b => a.1 < b.1) := by
  induction m with
  | nil => exact List.Pairwise.nil
  | cons e m ih =>
      obtain ⟨hall, hrest⟩ := List.pairwise_cons.1 hs
      rw [entriesAt_cons]
      by_cases h : e.2.1 = j
      · rw [if_pos h]
        refine List.pairwise_cons.2 ⟨?_, ih hrest⟩
        intro x hx
        exact hall _ (mem_of_mem_entriesAt hx)
      · rw [if_neg h]
        exact ih hrest

theorem frontAt_congrA {s s' : StateA α n} (j : Fin n)
    (h : s'.queues_ j = s.queues_ j) :
    MQA.frontAt j.val s' = MQA.frontAt j.val s := by
  rw [MQA.frontAt, MQA.frontAt, dif_pos j.isLt, dif_pos j.isLt, Fin.eta, h]

theorem frontAt_congrB {s s' : StateB α n} (j : Fin n)
    (h : s'.data_queue_ j = s.data_queue_ j) :
    MQB.frontAt j.val s' = MQB.frontAt j.val s := by
  rw [MQB.frontAt, MQB.frontAt, dif_pos j.isLt, dif_pos j.isLt, Fin.eta, h]

theorem MQB.dequeueAt_nil {s : StateB α n} {i : Fin n}
    (hne : s.data_queue_ i ≠ []) (hidx : s.index_queue_ = []) :
    MQB.dequeueAt i.val s =
      some ⟨[], Function.update s.data_queue_ i (s.data_queue_ i).tail,
            Function.update s.remain_ i (s.remain_ i + 1), s.length_ - 1⟩ := by
  have hemp : ¬ ((s.data_queue_ i).isEmpty = true) := by
    cases hcc : s.data_queue_ i with
    | nil => exact absurd hcc hne
    | cons a b => simp
  rw [MQB.dequeueAt, dif_pos i.isLt, Fin.eta, if_neg hemp, hidx]

/-- `dequeue(i)` of variant B, whatever the index queue holds, pops
exactly sub-queue `i`'s front and decrements `length_`. -/
theorem MQB.dequeueAt_some (i : Fin n) (s : StateB α n)
    (hne : s.data_queue_ i ≠ []) :
    ∃ s' : StateB α n, MQB.dequeueAt i.val s = some s' ∧
      s'.data_queue_ =
        Function.update s.data_queue_ i (s.data_queue_ i).tail ∧
      s'.length_ = s.length_ - 1 := by
  cases hidx : s.index_queue_ with
  | nil => exact ⟨_, MQB.dequeueAt_nil hne hidx, rfl, rfl⟩
  | cons j rest =>
      by_cases hij : i = j
      · subst hij
        exact ⟨_, MQB.dequeueAt_head hne hidx, rfl, rfl⟩
      · exact ⟨_, MQB.dequeueAt_tail hne hidx hij, rfl, rfl⟩

/-! ## The claims -/

/-- Concrete witness trace (`SIZE = 2`, values in `Nat`): enqueue `10`
into sub-queue 0, `20` into sub-queue 1, `30` into sub-queue 0. -/
def opsW : List (Op Nat 2) := [Op.enq 0 10, Op.enq 1 20, Op.enq 0 30]

/-- The journal reached by `opsW`. -/
def mW : AbsQ Nat 2 := [(0, 0, 10), (1, 1, 20), (2, 0, 30)]

/-- The witness trace extended so that the structure drains to empty. -/
def opsD : List (Op Nat 2) := opsW ++ [Op.deq, Op.deq, Op.deq]

/-- C1: after any legal trace (journal `m = e :: m'` with counter `c`),
`front()` of both variants returns the value of `e`, the journal entry
whose insertion sequence number is minimal among all present entries
(strictly below every other, so ties never occur); the two `queues_`
correspondences identify the journal's entries with the values currently
present in the structures. -/
theorem C1_front_globally_oldest (ops : List (Op α n)) (m : AbsQ α n)
    (c : Nat) (hrun : runM ops = some (m, c)) (e : Entry α n) (m' : AbsQ α n)
    (hm : m = e :: m') :
    MQA.front (runA ops) = some e.2.2 ∧
    MQB.front (runB ops) = some e.2.2 ∧
    (∀ i : Fin n, (runA ops).queues_ i = entriesAt i m) ∧
    (∀ i : Fin n, (runB ops).data_queue_ i = valuesAt i m) ∧
    (∀ x ∈ m, e.1 ≤ x.1) ∧
    (∀ x ∈ m', e.1 < x.1) := by
  obtain ⟨hA, hB⟩ := sim ops m c hrun
  obtain ⟨-, -, hfA⟩ := RA_head hA e m' hm
  obtain ⟨rest, -, -, -, -, hfB⟩ := RB_head hB e m' hm
  have hlt : ∀ x ∈ m', e.1 < x.1 := by
    have hs := hA.hsort
    rw [hm] at hs
    exact (List.pairwise_cons.1 hs).1
  refine ⟨hfA, hfB, hA.hq, hB.hd, ?_, hlt⟩
  intro x hx
  rw [hm] at hx
  rcases List.mem_cons.1 hx with h1 | h1
  · rw [h1]
  · exact le_of_lt (hlt x h1)

/-- Witness for C1 on the concrete trace `opsW`. -/
theorem C1_witness :
    MQA.front (runA opsW) = some 10 ∧
    MQB.front (runB opsW) = some 10 ∧
    (∀ i : Fin 2, (runA opsW).queues_ i = entriesAt i mW) ∧
    (∀ i : Fin 2, (runB opsW).data_queue_ i = valuesAt i mW) ∧
    (∀ x ∈ mW, 0 ≤ x.1) ∧
    (∀ x ∈ [((1 : Nat), (1 : Fin 2), (20 : Nat)), (2, 0, 30)], 0 < x.1) :=
  C1_front_globally_oldest opsW mW 3 rfl (0, 0, 10)
    [(1, 1, 20), (2, 0, 30)] rfl

/-- C2: on any reachable non-empty state (journal `e :: m'`), `dequeue()`
of either variant succeeds, removes exactly the value that `front()`
returns — the front of the sub-queue owning the oldest entry — decrements
the total length by one, and leaves every other sub-queue's contents
unchanged. -/
theorem C2_dequeue_removes_exactly_front (ops : List (Op α n)) (m : AbsQ α n)
    (c : Nat) (hrun : runM ops = some (m, c)) (e : Entry α n) (m' : AbsQ α n)
    (hm : m = e :: m') :
    (∃ sA' : StateA α n, MQA.dequeue (runA ops) = some sA' ∧
      MQA.front (runA ops) = some e.2.2 ∧
      ((runA ops).queues_ e.2.1).head? = some (e.1, e.2.2) ∧
      sA'.queues_ e.2.1 = ((runA ops).queues_ e.2.1).tail ∧
      (∀ j : Fin n, j ≠ e.2.1 → sA'.queues_ j = (runA ops).queues_ j) ∧
      sA'.length_ = (runA ops).length_ - 1 ∧ 0 < (runA ops).length_) ∧
    (∃ sB' : StateB α n, MQB.dequeue (runB ops) = some sB' ∧
      MQB.front (runB ops) = some e.2.2 ∧
      ((runB ops).data_queue_ e.2.1).head? = some e.2.2 ∧
      sB'.data_queue_ e.2.1 = ((runB ops).data_queue_ e.2.1).tail ∧
      (∀ j : Fin n, j ≠ e.2.1 → sB'.data_queue_ j = (runB ops).data_queue_ j) ∧
      sB'.length_ = (runB ops).length_ - 1 ∧ 0 < (runB ops).length_) := by
  obtain ⟨hA, hB⟩ := sim ops m c hrun
  obtain ⟨hqA, -, hfA⟩ := RA_head hA e m' hm
  constructor
  · obtain ⟨heqA, -⟩ := RA_deq hA e m' hm
    refine ⟨_, heqA, hfA, ?_, ?_, ?_, rfl, ?_⟩
    · rw [hqA]
      rfl
    · exact Function.update_same _ _ _
    · intro j hj
      exact Function.update_noteq hj _ _
    · rw [hA.hl, hm]
      exact Nat.succ_pos _
  · obtain ⟨rest, hidx, hdB, -, hvB, hfB⟩ := RB_head hB e m' hm
    obtain ⟨rest', hidx', heqB, -⟩ := RB_deq hB e m' hm
    refine ⟨_, heqB, hfB, ?_, ?_, ?_, rfl, ?_⟩
    · rw [hvB]
      rfl
    · exact Function.update_same _ _ _
    · intro j hj
      exact Function.update_noteq hj _ _
    · rw [hB.hl, hm]
      exact Nat.succ_pos _

/-- Witness for C2 on the concrete trace `opsW`. -/
theorem C2_witness :
    (∃ sA' : StateA Nat 2, MQA.dequeue (runA opsW) = some sA' ∧
      MQA.front (runA opsW) = some 10 ∧
      ((runA opsW).queues_ 0).head? = some (0, 10) ∧
      sA'.queues_ 0 = ((runA opsW).queues_ 0).tail ∧
      (∀ j : Fin 2, j ≠ 0 → sA'.queues_ j = (runA opsW).queues_ j) ∧
      sA'.length_ = (runA opsW).length_ - 1 ∧ 0 < (runA opsW).length_) ∧
    (∃ sB' : StateB Nat 2, MQB.dequeue (runB opsW) = some sB' ∧
      MQB.front (runB opsW) = some 10 ∧
      ((runB opsW).data_queue_ 0).head? = some 10 ∧
      sB'.data_queue_ 0 = ((runB opsW).data_queue_ 0).tail ∧
      (∀ j : Fin 2, j ≠ 0 → sB'.data_queue_ j = (runB opsW).data_queue_ j) ∧
      sB'.length_ = (runB opsW).length_ - 1 ∧ 0 < (runB opsW).length_) :=
  C2_dequeue_removes_exactly_front opsW mW 3 rfl (0, 0, 10)
    [(1, 1, 20), (2, 0, 30)] rfl

/-- C3: after any legal trace, in both variants the total count returned
by `size()` equals the sum of `size(i)` over all sub-queues. -/
theorem C3_size_is_sum_of_sizes (ops : List (Op α n)) (m : AbsQ α n)
    (c : Nat) (hrun : runM ops = some (m, c)) :
    MQA.size (runA ops) = (∑ i : Fin n, MQA.sizeAt i (runA ops)) ∧
    MQB.size (runB ops) = (∑ i : Fin n, MQB.sizeAt i (runB ops)) := by
  obtain ⟨hA, hB⟩ := sim ops m c hrun
  constructor
  · show (runA ops).length_ = _
    rw [hA.hl, ← sum_valuesAt_length m]
    apply Finset.sum_congr rfl
    intro i _
    show (valuesAt i m).length = ((runA ops).queues_ i).length
    rw [hA.hq i, valuesAt_eq_map, List.length_map]
  · show (runB ops).length_ = _
    rw [hB.hl, ← sum_valuesAt_length m]
    apply Finset.sum_congr rfl
    intro i _
    show (valuesAt i m).length = ((runB ops).data_queue_ i).length
    rw [hB.hd i]

/-- Witness for C3 on the concrete trace `opsW`. -/
theorem C3_witness :
    MQA.size (runA opsW) = (∑ i : Fin 2, MQA.sizeAt i (runA opsW)) ∧
    MQB.size (runB opsW) = (∑ i : Fin 2, MQB.sizeAt i (runB opsW)) :=
  C3_size_is_sum_of_sizes opsW mW 3 rfl

/-- C4 counterexample: in variant A, `dequeue()` on the freshly
constructed (empty) structure and `dequeue(0)` on its empty sub-queue 0
hit no assertion and return normally with the state unchanged — they do
not fail fast, refuting the claim that every such call fails
(`none` in this model) in both variants. -/
theorem C4_counterexample :
    MQA.dequeue (MQA.init Nat 2) = some (MQA.init Nat 2) ∧
    MQA.dequeue (MQA.init Nat 2) ≠ none ∧
    MQA.dequeueAt 0 (MQA.init Nat 2) = some (MQA.init Nat 2) ∧
    MQA.dequeueAt 0 (MQA.init Nat 2) ≠ none :=
  ⟨rfl, fun h => Option.noConfusion h, rfl, fun h => Option.noConfusion h⟩

/-- C4 as amended: `front()`/`front(i)` on an empty structure or
sub-queue and every operation on an invalid index fail fast by assertion
in both variants, and `dequeue()`/`dequeue(i)` on an empty structure or
sub-queue fail fast in variant B; but in variant A, `dequeue()` on an
empty structure and `dequeue(i)` on an empty sub-queue pass their
assertions and silently do nothing. -/
theorem C4_amended_fail_fast (sA : StateA α n) (sB : StateB α n) (i : Nat)
    (hA0 : sA.length_ = 0) (hB0 : sB.index_queue_ = []) (hge : n ≤ i)
    (j : Fin n) (hAj : sA.queues_ j = []) (hBj : sB.data_queue_ j = []) :
    MQA.front sA = none ∧ MQA.dequeue sA = some sA ∧
    MQA.frontAt i sA = none ∧ MQA.dequeueAt i sA = none ∧
    MQA.frontAt j.val sA = none ∧ MQA.dequeueAt j.val sA = some sA ∧
    MQB.front sB = none ∧ MQB.dequeue sB = none ∧
    MQB.frontAt i sB = none ∧ MQB.dequeueAt i sB = none ∧
    MQB.frontAt j.val sB = none ∧ MQB.dequeueAt j.val sB = none := by
  have hnlt : ¬ i < n := not_lt.2 hge
  refine ⟨?_, ?_, ?_, ?_, ?_, ?_, ?_, ?_, ?_, ?_, ?_, ?_⟩
  · rw [MQA.front, hA0]
    rfl
  · rw [MQA.dequeue, hA0]
    rfl
  · rw [MQA.frontAt, dif_neg hnlt]
  · rw [MQA.dequeueAt, dif_neg hnlt]
  · rw [MQA.frontAt, dif_pos j.isLt, Fin.eta, hAj]
    rfl
  · exact MQA.dequeueAt_noop j hAj
  · rw [MQB.front, hB0]
  · rw [MQB.dequeue, hB0]
  · rw [MQB.frontAt, dif_neg hnlt]
  · rw [MQB.dequeueAt, dif_neg hnlt]
  · rw [MQB.frontAt, dif_pos j.isLt, Fin.eta, hBj]
    rfl
  · rw [MQB.dequeueAt, dif_pos j.isLt, Fin.eta, hBj]
    rfl

/-- Witness for the amended C4 on the freshly constructed structures. -/
theorem C4_amended_witness :
    MQA.front (MQA.init Nat 2) = none ∧
    MQA.dequeue (MQA.init Nat 2) = some (MQA.init Nat 2) ∧
    MQA.frontAt 5 (MQA.init Nat 2) = none ∧
    MQA.dequeueAt 5 (MQA.init Nat 2) = none ∧
    MQA.frontAt (0 : Fin 2).val (MQA.init Nat 2) = none ∧
    MQA.dequeueAt (0 : Fin 2).val (MQA.init Nat 2) = some (MQA.init Nat 2) ∧
    MQB.front (MQB.init Nat 2) = none ∧
    MQB.dequeue (MQB.init Nat 2) = none ∧
    MQB.frontAt 5 (MQB.init Nat 2) = none ∧
    MQB.dequeueAt 5 (MQB.init Nat 2) = none ∧
    MQB.frontAt (0 : Fin 2).val (MQB.init Nat 2) = none ∧
    MQB.dequeueAt (0 : Fin 2).val (MQB.init Nat 2) = none :=
  C4_amended_fail_fast (MQA.init Nat 2) (MQB.init Nat 2) 5 rfl rfl
    (by omega) 0 rfl rfl

/-- C5: after any trace satisfying the contract preconditions, the two
variants agree on every observable — `size()`, `size(i)`, `empty()`,
`empty(i)`, `front()`, `front(i)`, the success of `enqueue` — and hold
the same per-sub-queue value sequences. -/
theorem C5_variants_indistinguishable (ops : List (Op α n)) (m : AbsQ α n)
    (c : Nat) (hrun : runM ops = some (m, c)) :
    MQA.size (runA ops) = MQB.size (runB ops) ∧
    (∀ i : Fin n, MQA.sizeAt i (runA ops) = MQB.sizeAt i (runB ops)) ∧
    MQA.empty (runA ops) = MQB.empty (runB ops) ∧
    (∀ i : Fin n, MQA.emptyAt i (runA ops) = MQB.emptyAt i (runB ops)) ∧
    MQA.front (runA ops) = MQB.front (runB ops) ∧
    (∀ i : Fin n, MQA.frontAt i.val (runA ops) = MQB.frontAt i.val (runB ops)) ∧
    (∀ (i : Fin n) (d : α), c < ULONG_MAX →
      (MQA.enqueue i d (runA ops)).1 = true) ∧
    (∀ i : Fin n, ((runA ops).queues_ i).map Prod.snd =
      (runB ops).data_queue_ i) := by
  obtain ⟨hA, hB⟩ := sim ops m c hrun
  refine ⟨?_, ?_, ?_, ?_, ?_, ?_, ?_, ?_⟩
  · show (runA ops).length_ = (runB ops).length_
    rw [hA.hl, hB.hl]
  · intro i
    show ((runA ops).queues_ i).length = ((runB ops).data_queue_ i).length
    rw [hA.hq i, hB.hd i, valuesAt_eq_map, List.length_map]
  · show ((runA ops).length_ == 0) = (runB ops).index_queue_.isEmpty
    cases m with
    | nil =>
        rw [hA.hl, (RB_empty_iff hB).2 rfl]
        rfl
    | cons e m' =>
        rw [hA.hl]
        cases hx : (runB ops).index_queue_ with
        | nil => exact absurd ((RB_empty_iff hB).1 hx) (List.cons_ne_nil e m')
        | cons k tl => simp
  · intro i
    show ((runA ops).queues_ i).isEmpty = ((runB ops).data_queue_ i).isEmpty
    rw [hA.hq i, hB.hd i, valuesAt_eq_map]
    cases hE : entriesAt i m <;> rfl
  · cases m with
    | nil =>
        have hA0 : (runA ops).length_ = 0 := by rw [hA.hl]; rfl
        have hB0 : (runB ops).index_queue_ = [] := (RB_empty_iff hB).2 rfl
        rw [MQA.front, hA0, MQB.front, hB0]
        rfl
    | cons e m' =>
        obtain ⟨-, -, hfA⟩ := RA_head hA e m' rfl
        obtain ⟨rest, -, -, -, -, hfB⟩ := RB_head hB e m' rfl
        rw [hfA, hfB]
  · intro i
    rw [MQA.frontAt, MQB.frontAt, dif_pos i.isLt, dif_pos i.isLt, Fin.eta,
      hA.hq i, hB.hd i, valuesAt_eq_map, List.head?_map]
  · intro i d hc
    exact (RA_enq hA i d hc).1
  · intro i
    rw [hA.hq i, hB.hd i, valuesAt_eq_map]

/-- Witness for C5 on the concrete trace `opsW`. -/
theorem C5_witness :
    MQA.size (runA opsW) = MQB.size (runB opsW) ∧
    (∀ i : Fin 2, MQA.sizeAt i (runA opsW) = MQB.sizeAt i (runB opsW)) ∧
    MQA.empty (runA opsW) = MQB.empty (runB opsW) ∧
    (∀ i : Fin 2, MQA.emptyAt i (runA opsW) = MQB.emptyAt i (runB opsW)) ∧
    MQA.front (runA opsW) = MQB.front (runB opsW) ∧
    (∀ i : Fin 2, MQA.frontAt i.val (runA opsW) = MQB.frontAt i.val (runB opsW)) ∧
    (∀ (i : Fin 2) (d : Nat), 3 < ULONG_MAX →
      (MQA.enqueue i d (runA opsW)).1 = true) ∧
    (∀ i : Fin 2, ((runA opsW).queues_ i).map Prod.snd =
      (runB opsW).data_queue_ i) :=
  C5_variants_indistinguishable opsW mW 3 rfl

/-- C6: `empty()` is true exactly when `size() = 0`, and `empty(i)`
exactly when `size(i) = 0`, in both variants, after any legal trace. -/
theorem C6_empty_iff_size_zero (ops : List (Op α n)) (m : AbsQ α n)
    (c : Nat) (hrun : runM ops = some (m, c)) :
    (MQA.empty (runA ops) = true ↔ MQA.size (runA ops) = 0) ∧
    (∀ i : Fin n, MQA.emptyAt i (runA ops) = true ↔
      MQA.sizeAt i (runA ops) = 0) ∧
    (MQB.empty (runB ops) = true ↔ MQB.size (runB ops) = 0) ∧
    (∀ i : Fin n, MQB.emptyAt i (runB ops) = true ↔
      MQB.sizeAt i (runB ops) = 0) := by
  obtain ⟨hA, hB⟩ := sim ops m c hrun
  refine ⟨?_, ?_, ?_, ?_⟩
  · show ((runA ops).length_ == 0) = true ↔ (runA ops).length_ = 0
    exact beq_iff_eq
  · intro i
    show ((runA ops).queues_ i).isEmpty = true ↔
      ((runA ops).queues_ i).length = 0
    rw [List.isEmpty_iff, List.length_eq_zero]
  · show (runB ops).index_queue_.isEmpty = true ↔ (runB ops).length_ = 0
    rw [List.isEmpty_iff, hB.hl, List.length_eq_zero]
    exact RB_empty_iff hB
  · intro i
    show ((runB ops).data_queue_ i).isEmpty = true ↔
      ((runB ops).data_queue_ i).length = 0
    rw [List.isEmpty_iff, List.length_eq_zero]

/-- Witness for C6 on the concrete trace `opsW`. -/
theorem C6_witness :
    (MQA.empty (runA opsW) = true ↔ MQA.size (runA opsW) = 0) ∧
    (∀ i : Fin 2, MQA.emptyAt i (runA opsW) = true ↔
      MQA.sizeAt i (runA opsW) = 0) ∧
    (MQB.empty (runB opsW) = true ↔ MQB.size (runB opsW) = 0) ∧
    (∀ i : Fin 2, MQB.emptyAt i (runB opsW) = true ↔
      MQB.sizeAt i (runB opsW) = 0) :=
  C6_empty_iff_size_zero opsW mW 3 rfl

/-- C7 (Strategy A): once the structure drains to empty, the insertion
counter is reset to zero and the state coincides with a freshly
constructed structure, so any subsequent operations — in particular any
sequence of enqueues and the orderings later observed through
`front`/`dequeue`/`front(i)`/`dequeue(i)` — behave exactly as on a fresh
structure. -/
theorem C7_counter_reset_on_drain (ops : List (Op α n)) (m : AbsQ α n)
    (c : Nat) (hrun : runM ops = some (m, c))
    (hdrain : (runA ops).length_ = 0) :
    (runA ops).count_ = 0 ∧ runA ops = MQA.init α n ∧
    (∀ more : List (Op α n), runA (ops ++ more) = runA more) := by
  obtain ⟨hA, -⟩ := sim ops m c hrun
  have hm0 : m = [] := by
    rw [hA.hl] at hdrain
    exact List.length_eq_zero.1 hdrain
  have hc0 : c = 0 := runM_drain ops m c hrun hm0
  have hcount : (runA ops).count_ = 0 := by rw [hA.hc, hc0]
  have hqe : (runA ops).queues_ = fun _ => [] := by
    funext i
    rw [hA.hq i, hm0]
    rfl
  have hstate : runA ops = MQA.init α n := by
    calc runA ops
        = ⟨(runA ops).queues_, (runA ops).count_, (runA ops).length_⟩ := rfl
      _ = ⟨fun _ => [], 0, 0⟩ := by rw [hqe, hcount, hdrain]
  refine ⟨hcount, hstate, ?_⟩
  intro more
  show runAFrom (MQA.init α n) (ops ++ more) = runA more
  rw [runAFrom_append]
  show runAFrom (runA ops) more = runA more
  rw [hstate]
  rfl

/-- Witness for C7 on the drained concrete trace `opsD`. -/
theorem C7_witness :
    (runA opsD).count_ = 0 ∧ runA opsD = MQA.init Nat 2 ∧
    (∀ more : List (Op Nat 2), runA (opsD ++ more) = runA more) :=
  C7_counter_reset_on_drain opsD [] 0 rfl rfl

/-- C8 (Strategy A): when the insertion counter has reached `ULONG_MAX`,
`enqueue` returns `false` and leaves the state untouched; along any legal
trace the counter never exceeds `ULONG_MAX` (it is never wrapped), and no
reachable state holds two present elements with equal insertion tags —
within one sub-queue tags are pairwise distinct, and across sub-queues an
equal tag forces the same sub-queue and the same element. -/
theorem C8_enqueue_exhaustion (ops : List (Op α n)) (m : AbsQ α n) (c : Nat)
    (hrun : runM ops = some (m, c)) (s : StateA α n) (i : Fin n) (d : α)
    (hex : ULONG_MAX ≤ s.count_) :
    MQA.enqueue i d s = (false, s) ∧
    (runA ops).count_ ≤ ULONG_MAX ∧
    (∀ j : Fin n, ((runA ops).queues_ j).Pairwise (fun a b => a.1 ≠ b.1)) ∧
    (∀ (j₁ j₂ : Fin n) (p₁ p₂ : Nat × α), p₁ ∈ (runA ops).queues_ j₁ →
      p₂ ∈ (runA ops).queues_ j₂ → p₁.1 = p₂.1 → j₁ = j₂ ∧ p₁ = p₂) := by
  obtain ⟨hA, -⟩ := sim ops m c hrun
  refine ⟨?_, ?_, ?_, ?_⟩
  · rw [MQA.enqueue, if_pos hex]
  · rw [hA.hc]
    exact runM_cle ops m c hrun
  · intro j
    rw [hA.hq j]
    exact (entriesAt_pairwise_lt hA.hsort j).imp (fun h => Nat.ne_of_lt h)
  · intro j₁ j₂ p₁ p₂ h₁ h₂ ht
    rw [hA.hq j₁] at h₁
    rw [hA.hq j₂] at h₂
    have e₁ := mem_of_mem_entriesAt h₁
    have e₂ := mem_of_mem_entriesAt h₂
    have heq := eq_of_mem_of_tag_eq hA.hsort e₁ e₂ ht
    rw [Prod.mk.injEq, Prod.mk.injEq] at heq
    obtain ⟨ha, hb, hc2⟩ := heq
    exact ⟨hb, Prod.ext ha hc2⟩

/-- A variant-A state whose insertion counter is exhausted. -/
def sExh : StateA Nat 2 := ⟨fun _ => [], ULONG_MAX, 0⟩

/-- Witness for C8 at the exhausted state `sExh` and the trace `opsW`. -/
theorem C8_witness :
    MQA.enqueue 0 7 sExh = (false, sExh) ∧
    (runA opsW).count_ ≤ ULONG_MAX ∧
    (∀ j : Fin 2, ((runA opsW).queues_ j).Pairwise (fun a b => a.1 ≠ b.1)) ∧
    (∀ (j₁ j₂ : Fin 2) (p₁ p₂ : Nat × Nat), p₁ ∈ (runA opsW).queues_ j₁ →
      p₂ ∈ (runA opsW).queues_ j₂ → p₁.1 = p₂.1 → j₁ = j₂ ∧ p₁ = p₂) :=
  C8_enqueue_exhaustion opsW mW 3 rfl sExh 0 7 (Nat.le_refl _)

/-- C9: on any reachable state whose sub-queue `i` is non-empty,
`dequeue(i)` succeeds in both variants and leaves every other sub-queue's
contents — hence its `size(j)` and `front(j)` — unchanged. -/
theorem C9_dequeueAt_noninterference (ops : List (Op α n)) (m : AbsQ α n)
    (c : Nat) (hrun : runM ops = some (m, c)) (i : Fin n)
    (hne : MQA.sizeAt i (runA ops) ≠ 0) :
    (∃ sA' : StateA α n, MQA.dequeueAt i.val (runA ops) = some sA' ∧
      ∀ j : Fin n, j ≠ i →
        sA'.queues_ j = (runA ops).queues_ j ∧
        MQA.sizeAt j sA' = MQA.sizeAt j (runA ops) ∧
        MQA.frontAt j.val sA' = MQA.frontAt j.val (runA ops)) ∧
    (∃ sB' : StateB α n, MQB.dequeueAt i.val (runB ops) = some sB' ∧
      ∀ j : Fin n, j ≠ i →
        sB'.data_queue_ j = (runB ops).data_queue_ j ∧
        MQB.sizeAt j sB' = MQB.sizeAt j (runB ops) ∧
        MQB.frontAt j.val sB' = MQB.frontAt j.val (runB ops)) := by
  obtain ⟨hA, hB⟩ := sim ops m c hrun
  have hpos : 0 < ((runA ops).queues_ i).length := Nat.pos_of_ne_zero hne
  constructor
  · refine ⟨_, MQA.dequeueAt_pos i hpos, ?_⟩
    intro j hj
    have hq : Function.update (runA ops).queues_ i
        ((runA ops).queues_ i).tail j = (runA ops).queues_ j :=
      Function.update_noteq hj _ _
    refine ⟨hq, ?_, frontAt_congrA j hq⟩
    show (Function.update (runA ops).queues_ i
        ((runA ops).queues_ i).tail j).length = ((runA ops).queues_ j).length
    rw [hq]
  · have hBne : (runB ops).data_queue_ i ≠ [] := by
      rw [hB.hd i, valuesAt_eq_map]
      intro hcon
      apply hne
      show ((runA ops).queues_ i).length = 0
      rw [hA.hq i, List.map_eq_nil_iff.1 hcon]
      rfl
    obtain ⟨sB', heq, hdq, -⟩ := MQB.dequeueAt_some i (runB ops) hBne
    refine ⟨sB', heq, ?_⟩
    intro j hj
    have hq : sB'.data_queue_ j = (runB ops).data_queue_ j := by
      rw [hdq]
      exact Function.update_noteq hj _ _
    refine ⟨hq, ?_, frontAt_congrB j hq⟩
    show (sB'.data_queue_ j).length = ((runB ops).data_queue_ j).length
    rw [hq]

/-- Witness for C9: dequeue sub-queue 1 after the trace `opsW`. -/
theorem C9_witness :
    (∃ sA' : StateA Nat 2, MQA.dequeueAt (1 : Fin 2).val (runA opsW) = some sA' ∧
      ∀ j : Fin 2, j ≠ 1 →
        sA'.queues_ j = (runA opsW).queues_ j ∧
        MQA.sizeAt j sA' = MQA.sizeAt j (runA opsW) ∧
        MQA.frontAt j.val sA' = MQA.frontAt j.val (runA opsW)) ∧
    (∃ sB' : StateB Nat 2, MQB.dequeueAt (1 : Fin 2).val (runB opsW) = some sB' ∧
      ∀ j : Fin 2, j ≠ 1 →
        sB'.data_queue_ j = (runB opsW).data_queue_ j ∧
        MQB.sizeAt j sB' = MQB.sizeAt j (runB opsW) ∧
        MQB.frontAt j.val sB' = MQB.frontAt j.val (runB opsW)) :=
  C9_dequeueAt_noninterference opsW mW 3 rfl 1 (by decide)

/-- C10 (Strategy B): in every reachable state, the index queue holds
exactly `length_ + Σ remain_ i` entries, and when it is non-empty its
front entry has deficit zero and names a non-empty sub-queue. -/
theorem C10_index_queue_invariant (ops : List (Op α n)) (m : AbsQ α n)
    (c : Nat) (hrun : runM ops = some (m, c)) :
    (runB ops).index_queue_.length =
      (runB ops).length_ + (∑ i : Fin n, (runB ops).remain_ i) ∧
    (∀ (j : Fin n) (rest : List (Fin n)),
      (runB ops).index_queue_ = j :: rest →
      (runB ops).remain_ j = 0 ∧ (runB ops).data_queue_ j ≠ []) := by
  obtain ⟨-, hB⟩ := sim ops m c hrun
  constructor
  · rw [length_eq_sum_count]
    have hsum : (∑ i : Fin n, (runB ops).index_queue_.count i) =
        (∑ i : Fin n, ((runB ops).remain_ i + (valuesAt i m).length)) :=
      Finset.sum_congr rfl (fun i _ => hB.hcount i)
    rw [hsum, Finset.sum_add_distrib, hB.hl, ← sum_valuesAt_length m]
    exact Nat.add_comm _ _
  · intro j rest hidx
    have hr0 := hB.hhead j rest hidx
    refine ⟨hr0, ?_⟩
    have hp := hB.hpurge
    rw [hidx, purge_cons_zero hr0] at hp
    cases m with
    | nil => exact absurd hp (List.cons_ne_nil _ _)
    | cons e m' =>
        rw [List.map_cons] at hp
        obtain ⟨hj, -⟩ := List.cons.inj hp
        rw [hB.hd j, hj, valuesAt_cons, if_pos rfl]
        exact List.cons_ne_nil _ _

/-- The witness trace with one lazy deletion: after `opsW`, sub-queue 1
is drained directly, leaving a stale entry in the index queue. -/
def opsR : List (Op Nat 2) := opsW ++ [Op.deqAt 1]

/-- Witness for C10 on the trace `opsR`. -/
theorem C10_witness :
    (runB opsR).index_queue_.length =
      (runB opsR).length_ + (∑ i : Fin 2, (runB opsR).remain_ i) ∧
    (∀ (j : Fin 2) (rest : List (Fin 2)),
      (runB opsR).index_queue_ = j :: rest →
      (runB opsR).remain_ j = 0 ∧ (runB opsR).data_queue_ j ≠ []) :=
  C10_index_queue_invariant opsR [(0, 0, 10), (2, 0, 30)] 3 rfl
